import Mathlib

/-!
Verification development for the wvtagconvert repository
(`src/wvtagconvert.py`, a Wikivoyage listing-format converter).

The Python source is shallowly embedded over `Str := List Char`
(the program runs on decoded unicode text; we model characters
directly).  Python `dict`s are modelled as ordered association lists
built by in-place-overwriting insertion (`rset`), which reproduces the
observable dict behaviour of the source (lookup, last-value-wins on
duplicate keys, key-set).  Fallible Python code (index errors, key
errors, unpacking errors, calling non-callable class attributes) is
modelled with `Option` / `Except`: `none` / `.error` is an uncaught
exception escaping the function.

External collaborators that are not part of this repository's visible
source (the `heuristics` module, the per-language `translation`
modules, `ElementSoup`, `json.dumps` and the `re` engine) are taken as
parameters (`Services`, `Matchers`), so theorems quantified over them
hold for the real collaborators whatever they are.  Helpers from the
repository's own `utils` module that are missing from `src/`
(`squeeze`, `html_decode`, `TolerantFormatter`) are modelled from the
spec where the spec describes them, as marked in doc comments.
-/

/-- Characters of decoded Python text. -/
abbrev Str := List Char

/-- A parsed record: ordered field-name/value association list
modelling a Python `dict`. -/
abbrev Record := List (Str × Str)

/-- The apostrophe character `'`. -/
def quoteC : Char := Char.ofNat 39

/-- The backslash character. -/
def backslashC : Char := Char.ofNat 92

/-- The opening-brace character. -/
def obraceC : Char := Char.ofNat 123

/-- The closing-brace character. -/
def cbraceC : Char := Char.ofNat 125

/-- Python whitespace, as recognised by `str.split()` / `str.strip()`
and the regex class `\s`: space, tab, newline, carriage return,
vertical tab, form feed. -/
def pyWs : List Char := [' ', '\t', '\n', '\r', Char.ofNat 11, Char.ofNat 12]

/-- `s.lstrip(cs)`: drop leading characters belonging to `cs`. -/
def pyLstrip (cs : List Char) (s : Str) : Str := s.dropWhile (· ∈ cs)

/-- `s.rstrip(cs)`: drop trailing characters belonging to `cs`. -/
def pyRstrip (cs : List Char) (s : Str) : Str :=
  (s.reverse.dropWhile (· ∈ cs)).reverse

/-- `s.strip(cs)`: drop characters of `cs` from both ends. -/
def pyStrip (cs : List Char) (s : Str) : Str := pyRstrip cs (pyLstrip cs s)

/-- `s.strip()` with no argument: strip Python whitespace. -/
def pyStripWs (s : Str) : Str := pyStrip pyWs s

/-- Does `pat` occur as a prefix of `s`?  (`s.startswith(pat)`.) -/
def isPrefixB : Str → Str → Bool
  | [], _ => true
  | _ :: _, [] => false
  | p :: ps, c :: cs => p = c && isPrefixB ps cs

/-- Does `pat` occur as a substring of `s`?  (`pat in s`.) -/
def containsSub (pat : Str) : Str → Bool
  | [] => isPrefixB pat []
  | c :: cs => isPrefixB pat (c :: cs) || containsSub pat cs

/-- `s.split(pat, 1)` when `pat` occurs: the part before the first
occurrence of `pat` and the part after it; `none` when `pat` does not
occur. -/
def splitFirstSub (pat : Str) : Str → Option (Str × Str)
  | [] => if isPrefixB pat [] then some ([], []) else none
  | c :: cs =>
    if isPrefixB pat (c :: cs) then some ([], (c :: cs).drop pat.length)
    else (splitFirstSub pat cs).map (fun ab => (c :: ab.1, ab.2))

/-- `s.split(c, 1)` for a single character known to occur: part before
the first `c` and part after.  When `c` does not occur the whole
string is the first component (the callers in the source only use the
second component under an `in` guard). -/
def splitFirstChar (c : Char) : Str → Str × Str
  | [] => ([], [])
  | x :: xs =>
    if x = c then ([], xs)
    else let r := splitFirstChar c xs; (x :: r.1, r.2)

/-- `s.split(c)`: split on every occurrence of the character `c`,
keeping empty parts, as Python does with an explicit separator. -/
def splitAllChar (c : Char) : Str → List Str
  | [] => [[]]
  | x :: xs =>
    match splitAllChar c xs with
    | [] => [[x]]
    | h :: t => if x = c then [] :: h :: t else (x :: h) :: t

/-- `s.split(pat)` for a substring separator (used for the line
delimiter of the entry segmenter).  Fuel-bounded recursion; the fuel
`s.length + 1` is enough because each round consumes at least the
(nonempty) separator. -/
def splitOnSubAux (pat : Str) : Nat → Str → List Str
  | 0, s => [s]
  | fuel + 1, s =>
    match splitFirstSub pat s with
    | none => [s]
    | some (a, b) => a :: splitOnSubAux pat fuel b

/-- `s.split(pat)` for a substring separator. -/
def splitOnSub (pat : Str) (s : Str) : List Str :=
  splitOnSubAux pat (s.length + 1) s

/-- Count non-overlapping occurrences of `pat` in `s`
(`s.count(pat)`), fuel-bounded like `splitOnSub`. -/
def countSubAux (pat : Str) : Nat → Str → Nat
  | 0, _ => 0
  | _ + 1, [] => 0
  | fuel + 1, c :: cs =>
    if isPrefixB pat (c :: cs) then 1 + countSubAux pat fuel ((c :: cs).drop pat.length)
    else countSubAux pat fuel cs

/-- `s.count(pat)` for nonempty `pat`. -/
def countSub (pat s : Str) : Nat := countSubAux pat (s.length + 1) s

/-- Replace every non-overlapping occurrence of `pat` in `s` by `rep`
(`s.replace(pat, rep)`), fuel-bounded. -/
def replaceSubAux (pat rep : Str) : Nat → Str → Str
  | 0, s => s
  | _ + 1, [] => []
  | fuel + 1, c :: cs =>
    if isPrefixB pat (c :: cs) then rep ++ replaceSubAux pat rep fuel ((c :: cs).drop pat.length)
    else c :: replaceSubAux pat rep fuel cs

/-- `s.replace(pat, rep)` for nonempty `pat`. -/
def replaceSub (pat rep s : Str) : Str := replaceSubAux pat rep (s.length + 1) s

/-- `s.replace("'", '')`: drop apostrophes. -/
def removeQuotes (s : Str) : Str := s.filter (· ≠ quoteC)

/-- ASCII upper-casing of one character, the behaviour of Python's
`str.upper()` on the ASCII range (the only case the source exercises
in its `[0].upper()` idiom is modelled on ASCII letters; other
characters are returned unchanged). -/
def pyUpperC (c : Char) : Char :=
  if 97 ≤ c.toNat ∧ c.toNat ≤ 122 then Char.ofNat (c.toNat - 32) else c

/-- ASCII lower-casing of one character (`str.lower()` on ASCII). -/
def pyLowerC (c : Char) : Char :=
  if 65 ≤ c.toNat ∧ c.toNat ≤ 90 then Char.ofNat (c.toNat + 32) else c

/-- `s.lower()` (ASCII model). -/
def pyLower (s : Str) : Str := s.map pyLowerC

/-- The 52 ASCII letters, the value of Python's
`string.ascii_letters`. -/
def asciiLetters : List Char :=
  (List.range 26).map (fun i => Char.ofNat (97 + i)) ++
  (List.range 26).map (fun i => Char.ofNat (65 + i))

/-- Length bound for `dropWhile`, used for termination. -/
theorem dropWhile_len_le (p : Char → Bool) (l : Str) :
    (l.dropWhile p).length ≤ l.length := by
  induction l with
  | nil => simp [List.dropWhile]
  | cons c cs ih =>
    simp only [List.dropWhile]
    cases p c <;> simp <;> omega

/-- The word list `s.split()`: maximal runs of non-whitespace
characters.  Fuel-bounded so the definition reduces inside the
kernel; `pyWords` supplies adequate fuel and the unfolding equations
below recover the natural recursion. -/
def pyWordsAux : Nat → Str → List Str
  | 0, _ => []
  | _ + 1, [] => []
  | fuel + 1, c :: cs =>
    if c ∈ pyWs then pyWordsAux fuel cs
    else (c :: cs.takeWhile (· ∉ pyWs)) :: pyWordsAux fuel (cs.dropWhile (· ∉ pyWs))

/-- The word list `s.split()`. -/
def pyWords (s : Str) : List Str := pyWordsAux (s.length + 1) s

/-- The fuel of `pyWordsAux` is irrelevant once adequate. -/
theorem pyWordsAux_congr :
    ∀ (f1 f2 : Nat) (s : Str), s.length < f1 → s.length < f2 →
      pyWordsAux f1 s = pyWordsAux f2 s := by
  intro f1
  induction f1 with
  | zero => intro f2 s h1 _; omega
  | succ f1 ih =>
    intro f2 s h1 h2
    cases f2 with
    | zero => omega
    | succ f2 =>
      cases s with
      | nil => rfl
      | cons c cs =>
        simp only [pyWordsAux]
        simp only [List.length_cons] at h1 h2
        by_cases hc : c ∈ pyWs
        · rw [if_pos hc, if_pos hc]
          exact ih f2 cs (by omega) (by omega)
        · rw [if_neg hc, if_neg hc]
          have hd := dropWhile_len_le (fun x => decide (x ∉ pyWs)) cs
          rw [ih f2 (cs.dropWhile (· ∉ pyWs)) (by omega) (by omega)]

/-- `pyWords` on the empty string. -/
theorem pyWords_nil : pyWords [] = [] := rfl

/-- The natural unfolding of `pyWords`. -/
theorem pyWords_cons (c : Char) (cs : Str) :
    pyWords (c :: cs) =
      if c ∈ pyWs then pyWords cs
      else (c :: cs.takeWhile (· ∉ pyWs)) :: pyWords (cs.dropWhile (· ∉ pyWs)) := by
  show pyWordsAux ((c :: cs).length + 1) (c :: cs) = _
  simp only [pyWordsAux, List.length_cons]
  by_cases hc : c ∈ pyWs
  · rw [if_pos hc, if_pos hc]
    rfl
  · rw [if_neg hc, if_neg hc]
    have hd := dropWhile_len_le (fun x => decide (x ∉ pyWs)) cs
    rw [pyWordsAux_congr (cs.length + 1) ((cs.dropWhile (· ∉ pyWs)).length + 1)
      (cs.dropWhile (· ∉ pyWs)) (by omega) (by omega)]
    rfl

/-- Modelled from the spec: `utils.squeeze`, the whitespace squeezer
from the repository's `utils` module (not under `src/`).  The spec
describes it as collapsing repeated whitespace; we model the standard
`' '.join(s.split())`: words joined by single spaces, outer whitespace
stripped. -/
def squeeze (s : Str) : Str := List.intercalate [' '] (pyWords s)

/-- Dict lookup `d.get(k)` / `d[k]` on the association-list model:
the value of the first entry carrying the key. -/
def rget : Record → Str → Option Str
  | [], _ => none
  | (k1, v1) :: rest, k => if k1 = k then some v1 else rget rest k

/-- Dict store `d[k] = v`: overwrite the first entry with key `k` in
place, else append.  Association-list model of Python dict update. -/
def rset (d : Record) (k v : Str) : Record :=
  match d with
  | [] => [(k, v)]
  | (k1, v1) :: rest => if k1 = k then (k, v) :: rest else (k1, v1) :: rset rest k v

/-- `dict(pairs)`: fold the pairs into an empty dict; on duplicate
keys the later value wins, as in Python. -/
def buildDict (kvs : List (Str × Str)) : Record :=
  kvs.foldl (fun d kv => rset d kv.1 kv.2) []

/-- `d.setdefault(k, v)`: returns the updated dict and the value the
key has afterwards. -/
def rsetdefault (d : Record) (k v : Str) : Record × Str :=
  match rget d k with
  | some w => (d, w)
  | none => (rset d k v, v)

/-- The terminal punctuation characters of `Wikiparser.description`. -/
def terminalChars : List Char := ['.', '!', '?']

/-- The emphasis-marker strings whose single stray occurrence
`Wikiparser.description` removes: triple and double apostrophe. -/
def tripleQuote : Str := [quoteC, quoteC, quoteC]

/-- Double apostrophe. -/
def doubleQuote : Str := [quoteC, quoteC]

/-- The emphasis-marker removal loop of `Wikiparser.description` (src
lines 42-44): each marker occurring exactly once is removed, the
triple marker checked before the double one. -/
def descStripQuotes (s : Str) : Str :=
  let s3 := if countSub tripleQuote s = 1 then replaceSub tripleQuote [] s else s
  if countSub doubleQuote s3 = 1 then replaceSub doubleQuote [] s3 else s3

/-- The final step of `Wikiparser.description`: inspect the last
character (`IndexError`, modelled `none`, on an empty value) and
append a period when it is not terminal punctuation. -/
def descFinish (s : Str) : Option Str :=
  match s.getLast? with
  | none => none
  | some last => some (if last ∈ terminalChars then s else s ++ ['.'])

/-- `Wikiparser.description` (src lines 37-47): strip leading
punctuation, capitalize the first character, drop stray emphasis
markers occurring exactly once, and append a final period when the
value does not end in terminal punctuation.  `none` models the
`IndexError` raised by `description[-1]` when the marker removal
empties the string. -/
def description (s : Str) : Option Str :=
  match pyLstrip [';', '.', ',', ' '] s with
  | [] => some []
  | c :: rest => descFinish (descStripQuotes (pyUpperC c :: rest))

/-- `Wikiparser.directions` (src lines 49-51): drop apostrophes, strip
surrounding whitespace. -/
def directions (s : Str) : Str := pyStripWs (removeQuotes s)

/-- One replacement pass of `re.sub(r'\(\s*0\s*\)', ' ', s)`: try to
match an opening parenthesis, optional whitespace, a zero, optional
whitespace and a closing parenthesis at the head of `s`; return the
remainder on success. -/
def matchParenZero (s : Str) : Option Str :=
  match s with
  | '(' :: rest =>
    match rest.dropWhile (· ∈ pyWs) with
    | '0' :: rest2 =>
      match rest2.dropWhile (· ∈ pyWs) with
      | ')' :: rest3 => some rest3
      | _ => none
    | _ => none
  | _ => none

/-- `re.sub(r'\(\s*0\s*\)', ' ', s)`: leftmost non-overlapping
replacement by a single space, fuel-bounded (each successful match
consumes at least three characters). -/
def subParenZeroAux : Nat → Str → Str
  | 0, s => s
  | _ + 1, [] => []
  | fuel + 1, c :: cs =>
    match matchParenZero (c :: cs) with
    | some rest => ' ' :: subParenZeroAux fuel rest
    | none => c :: subParenZeroAux fuel cs

/-- `re.sub(r'\(\s*0\s*\)', ' ', s)`. -/
def subParenZero (s : Str) : Str := subParenZeroAux s.length s

/-- `Wikiparser.numbers` (src lines 53-70).  Note two source
subtleties embedded faithfully: `number.split('+', 1)[1]` keeps the
text after the *first* plus sign, and
`tuple('+(0123456789'.split())` is the one-element tuple containing
the whole string `'+(0123456789'` (because `.split()` splits on
whitespace and the literal contains none), so the `startswith` test
compares against that entire string.  `none` models the `IndexError`
of `number[0]` / `number[1]` when the squeezed value is empty or is
the single character `0`. -/
def numbers (v : Str) : Option Str :=
  let n := pyLstrip [';', '.', ',', ' '] v
  let n :=
    if containsSub ['+'] n then '+' :: (splitFirstChar '+' n).2
    else if ¬ isPrefixB ("+(0123456789".toList) n then
      -- `startswith` is false, so strip leading letters, spaces, colons, slashes
      pyLstrip (asciiLetters ++ [' ', ':', '/']) n
    else n
  if n = [] then some [] else
    let n := if isPrefixB ['('] n then n else subParenZero n
    let n := n.map (fun c => if c ∈ ['(', ')', '/', '.', backslashC, '-'] then ' ' else c)
    let n := squeeze n
    match n with
    | [] => none
    | [c] => if c = '0' then none else some (removeQuotes [c])
    | c1 :: c2 :: rest =>
      let n := if c1 = '0' ∧ c2 = ' ' then '0' :: rest else c1 :: c2 :: rest
      some (removeQuotes n)

/-- The bracket-stripping step of `Wikiparser.url` (src lines 74-78):
strip wiki-link bracket syntax and a trailing link label. -/
def urlStrip (v : Str) : Str :=
  if isPrefixB ['['] v then
    let t := pyStrip ['[', ']', ' '] v
    if containsSub [' '] t then (splitFirstChar ' ' t).1 else t
  else v

/-- `Wikiparser.url` (src lines 72-81): strip wiki-link bracket syntax
and a trailing link label, and prepend `http://` when the value
neither starts with `http://` nor contains `//`. -/
def url (v : Str) : Str :=
  let v := urlStrip v
  if ¬ isPrefixB ("http://".toList) v ∧ ¬ containsSub ("//".toList) v then
    ("http://".toList) ++ v
  else v

/-- `Wikiparser.email` (src lines 83-88): when a colon occurs, keep
only the whitespace-stripped text after the first colon; then keep
only the part before the first space and drop apostrophes. -/
def email (v : Str) : Str :=
  let v := if containsSub [':'] v then pyStripWs (splitFirstChar ':' v).2 else v
  removeQuotes (v.takeWhile (· ≠ ' '))

/-- `Wikiparser.price` (src lines 90-92): capitalize the first
character, strip trailing punctuation.  `none` models the
`IndexError` of `price[0]` on an empty value (never reached through
`sanitize_item`, which skips empty values). -/
def price (v : Str) : Option Str :=
  match v with
  | [] => none
  | c :: rest => some (pyUpperC c :: pyRstrip ['.', ',', ' '] rest)

/-- `Wikiparser.item_lookup` (src lines 32-35): field-name aliasing to
the shared numbers normalizer. -/
def itemLookup (k : Str) : Str :=
  if k = "phone".toList ∨ k = "mobile".toList ∨ k = "fax".toList ∨ k = "fax-mobile".toList
  then "numbers".toList else k

/-- The dispatch name of `sanitize_item` (src lines 99-107): alias
through `item_lookup`, and force names starting with `sanitize` to
`default` (so the classmethods `sanitize`/`sanitize_item` are never
dispatched to). -/
def routeName (k : Str) : Str :=
  let fn := itemLookup k
  if isPrefixB ("sanitize".toList) fn then "default".toList else fn

/-- Class attributes (beyond the sanitizer methods) visible to
`getattr(cls, func_name, cls.default)` whose lookup succeeds but whose
call `attr(val)` raises `TypeError`.  `item_lookup` is such an
attribute of the base class `Wikiparser`; the subclasses add their
own (regex strings, tuples, classmethods of other arity).  The list is
a parameter so each parser class dispatches over its own attribute
set.  (Python object dunder attributes would also be reachable; they
are not modelled, and no theorem below depends on such keys.) -/
def baseCrashAttrs : List Str := [("item_lookup".toList)]

/-- Apply the sanitizer selected by dispatch name `fn` to `v`;
`crashAttrs` lists additional class attributes whose dispatch crashes
with `TypeError`. -/
def applySan (crashAttrs : List Str) (fn v : Str) : Option Str :=
  if fn ∈ crashAttrs then none
  else if fn = "description".toList then description v
  else if fn = "directions".toList then some (directions v)
  else if fn = "numbers".toList then numbers v
  else if fn = "url".toList then some (url v)
  else if fn = "email".toList then some (email v)
  else if fn = "price".toList then price v
  else some v

/-- `Wikiparser.sanitize_item` (src lines 98-107): squeeze key and
value, then dispatch on the (aliased) key name; empty values are kept
unchanged. -/
def sanitize_item (crashAttrs : List Str) (k v : Str) : Option (Str × Str) :=
  let k1 := squeeze k
  let v1 := squeeze v
  if v1 = [] then some (k1, v1)
  else (applySan crashAttrs (routeName k1) v1).map (fun w => (k1, w))

/-- `Wikiparser.sanitize` (src lines 109-111): sanitize every entry of
the record. -/
def sanitize (crashAttrs : List Str) : Record → Option Record
  | [] => some []
  | kv :: rest => do
    let kv1 ← sanitize_item crashAttrs kv.1 kv.2
    let rest1 ← sanitize crashAttrs rest
    pure (kv1 :: rest1)

/-- Attributes of the `Untagged` class body (src lines 114-118) whose
sanitizer dispatch would crash: regex strings, the unique-items set,
and the classmethods of other arity. -/
def untaggedCrashAttrs : List Str :=
  baseCrashAttrs ++ ["search".toList, "search_generous".toList, "unique_items".toList,
    "read".toList, "parse".toList]

/-- Attributes of the `Vcard` class body (src lines 149-172) whose
sanitizer dispatch would crash. -/
def vcardCrashAttrs : List Str :=
  baseCrashAttrs ++ ["search".toList, "read".toList, "tostring".toList, "parse".toList]

/-- Attributes of the `Tag` class body (src lines 175-220) whose
sanitizer dispatch would crash. -/
def tagCrashAttrs : List Str :=
  baseCrashAttrs ++ ["types".toList, "search".toList, "fields".toList, "template".toList,
    "template_sleep".toList, "xml_header".toList, "formatter".toList,
    "tagtype_translation".toList, "read".toList, "tostring".toList, "parse".toList]

/-- A parsed markup element, the result of `ElementSoup.parse`: tag
name, attribute items, inner text and child elements.  `text = []`
models both Python `None` and the empty string (both falsy, and only
truthiness and concatenation are applied to it). -/
inductive Element where
  | mk (tag : Str) (attrs : List (Str × Str)) (text : Str) (children : List Element)

/-- The external collaborators of the core pipeline, taken as
parameters: the language-resolved `heuristics` functions, the
language module's vcard formatting hooks, `json.dumps`, the
`ElementSoup` markup parser, and `utils.html_decode` (a `utils`
helper missing from `src/` and not described by the spec, hence kept
abstract).  The language argument threaded through the Python source
and the chunk filter `heuristics.get_chunk_filter(language)` are
folded into the service closure. -/
structure Services where
  determine_tagtype : Str → Str × Str
  chunkify : Str → List Str
  classify_chunk : Str → Nat → Str
  merge_chunks : List Str → Str → Str
  translate_vcard : Record → Record
  format_vcard : Record → Str
  jsonDumps : Record → Str
  soupParse : Str → Element
  html_decode : Str → Str

/-- Tag name of an element. -/
def Element.tag : Element → Str
  | .mk t _ _ _ => t

/-- Attribute items of an element (`t.items()`). -/
def Element.attrs : Element → List (Str × Str)
  | .mk _ a _ _ => a

/-- Inner text of an element (`t.text`). -/
def Element.text : Element → Str
  | .mk _ _ x _ => x

/-- Child elements of an element. -/
def Element.children : Element → List Element
  | .mk _ _ _ c => c

/-- `Vcard.read` (src lines 152-160), applied to a string matched by
the vcard pattern.  `none` models the `ValueError` of the two-target
unpacking when no `}}` occurs, and the `IndexError` of `p[1]` on a
part without `=`. -/
def Vcard_read (sv : Services) (s : Str) : Option Record := do
  let (vs, desc) ← splitFirstSub [cbraceC, cbraceC] s
  let core := pyStrip [obraceC, cbraceC, ',', '.', ' '] vs
  let parts := (splitAllChar '|' core).drop 1
  let pts := parts.map (splitAllChar '=')
  let kvs ← pts.mapM (fun p =>
    match p with
    | k :: v :: _ => some (pyLower (pyStripWs k), v)
    | _ => none)
  let d := buildDict kvs
  let (d, desc1) := rsetdefault d ("description".toList) desc
  let d :=
    if ((rget d ("subtype".toList)).getD []) = [] ∧ desc1 ≠ [] then
      rset d ("subtype".toList)
        (sv.determine_tagtype (((rget d ("name".toList)).getD []) ++ [' '] ++ desc1)).2
    else d
  sanitize vcardCrashAttrs d

/-- `Vcard.tostring` (src lines 162-167): translate the record through
the language module, drop the internal `tag` key, format. -/
def Vcard_tostring (sv : Services) (d : Record) : Str :=
  sv.format_vcard ((sv.translate_vcard d).filter (fun kv => kv.1 ≠ "tag".toList))

/-- The `Tag` category names (src line 176). -/
def tagTypes : List Str :=
  ["eat".toList, "drink".toList, "buy".toList, "do".toList, "see".toList, "sleep".toList]

/-- The `Tag.fields` tuple (src lines 178-179), in template order. -/
def tagFields : List Str :=
  ["name".toList, "alt".toList, "address".toList, "directions".toList, "phone".toList,
   "tollfree".toList, "email".toList, "fax".toList, "url".toList, "hours".toList,
   "checkin".toList, "checkout".toList, "price".toList, "lat".toList, "long".toList]

/-- The fields rendered by the template for a given category: the
`sleep` template keeps `checkin`/`checkout`, the common template
omits them (src lines 180-182). -/
def templateFields (sleep : Bool) : List Str :=
  if sleep then tagFields
  else tagFields.filter (fun f => f ≠ "checkin".toList ∧ f ≠ "checkout".toList)

/-- The core of `Tag.read` (src lines 187-199) after the external
`ElementSoup.parse` call: unwrap an `html` root (taking its first
child; `IndexError` when there is none), read the attributes into a
record, record the tag name as `type`, and, when inner text is
present, record it as `description` and derive `subtype` from
`d['name'] + ' ' + d['description']` (a `KeyError`, modelled `none`,
when the element has text but no `name` attribute). -/
def tagBuild (sv : Services) (t : Element) : Option Record :=
  let d := rset (buildDict t.attrs) ("type".toList) t.tag
  if t.text ≠ [] then
    let d2 := rset d ("description".toList) t.text
    match rget d2 ("name".toList) with
    | none => none
    | some nm =>
      some (rset d2 ("subtype".toList) (sv.determine_tagtype (nm ++ [' '] ++ t.text)).2)
  else some d

/-- `Tag.read`, continued: unwrap an `html` root, build the record,
sanitize. -/
def Tag_read (sv : Services) (t0 : Element) : Option Record :=
  match (if t0.tag = "html".toList then t0.children.head? else some t0) with
  | none => none
  | some t =>
    match tagBuild sv t with
    | none => none
    | some d => sanitize tagCrashAttrs d

/-- Modelled from the spec: `Vcard.number_fields`, referenced by
`Tag.tostring` (src line 212) but not defined anywhere under `src/`.
The spec describes the loop as ranging over every contact-number-like
field; we take the contact-number field names the spec's sanitizer
aliasing enumerates (`phone`/`mobile`/`fax`/`fax-mobile`). -/
def numberFields : List Str :=
  ["phone".toList, "mobile".toList, "fax".toList, "fax-mobile".toList]

/-- The international-prefix pass of `Tag.tostring` (src lines
209-214): when the record carries a non-empty `intl-area-code`, each
nonempty contact-number field not already starting with `+` or `00` is
replaced by the code, a space, and the number with leading zeros
stripped. -/
def intlStep (c : Str) (d2 : Record) (f : Str) : Record :=
  match rget d2 f with
  | none => d2
  | some v =>
    if v ≠ [] ∧ ¬ (isPrefixB ['+'] v ∨ isPrefixB ['0', '0'] v) then
      rset d2 f (c ++ [' '] ++ pyLstrip ['0'] v)
    else d2

/-- The loop of the international-prefix pass (src lines 212-214),
one contact-number field at a time, continued in `prefixNumbers`. -/
def prefixNumbers (d : Record) : Record :=
  match rget d ("intl-area-code".toList) with
  | none => d
  | some c => if c = [] then d else numberFields.foldl (intlStep c) d

/-- Rendering of the tag templates (src lines 180-182, 215) through
the `TolerantFormatter`.  The formatter itself lives in the
repository's `utils` module, missing from `src/`; it is modelled from
the spec: a template field whose value is absent from the record
renders as an empty value rather than raising. -/
def tagOf (d : Record) : Str := (rget d ("tag".toList)).getD []

/-- The attribute part of the rendered template: every template field
as `field="value"`, an absent field rendering as the empty value. -/
def attrTextOf (d : Record) : Str :=
  List.intercalate [' ']
    ((templateFields (tagOf d = "sleep".toList)).map
      (fun f => f ++ ['=', '"'] ++ ((rget d f).getD []) ++ ['"']))

/-- The rendered tag element, continued from `attrTextOf`. -/
def renderTag (d : Record) : Str :=
  ['<'] ++ tagOf d ++ [' '] ++ attrTextOf d ++ ['>'] ++
    ((rget d ("description".toList)).getD []) ++ ['<', '/'] ++ tagOf d ++ ['>']

/-- `Tag.tostring` (src lines 201-215): lower-case the record's
`type` (a `KeyError`, modelled `none`, when absent), translate an
unknown category through the heuristic service, store it as `tag`,
apply the international-prefix pass, render the template. -/
def Tag_tostring (sv : Services) (d : Record) : Option Str := do
  let ty ← rget d ("type".toList)
  let tlow := pyLower ty
  let tlow := if tlow ∈ tagTypes then tlow else (sv.determine_tagtype tlow).1
  let d := rset d ("tag".toList) tlow
  let d := prefixNumbers d
  pure (renderTag d)

/-- The unique-field set of the untagged parser (src line 118). -/
def uniqueItems : List Str :=
  ["name".toList, "address".toList, "phone".toList, "fax".toList, "email".toList,
   "url".toList]

/-- Key order used by `sorted(..., key=operator.itemgetter(0))`:
lexicographic comparison of the label strings. -/
def chunkLE (p q : Str × Str) : Prop := p.1 ≤ q.1

instance : DecidableRel chunkLE := fun p q => by
  unfold chunkLE; infer_instance

instance : IsTotal (Str × Str) chunkLE :=
  ⟨fun p q => le_total p.1 q.1⟩

instance : IsTrans (Str × Str) chunkLE :=
  ⟨fun _ _ _ h1 h2 => le_trans h1 h2⟩

/-- Length bound for `dropWhile` on pair lists, used for fuel
adequacy. -/
theorem dropWhile_len_le_pair (p : Str × Str → Bool) (l : List (Str × Str)) :
    (l.dropWhile p).length ≤ l.length := by
  induction l with
  | nil => simp [List.dropWhile]
  | cons c cs ih =>
    simp only [List.dropWhile]
    cases p c
    · simp
    · simp; omega

/-- Consecutive grouping of an already-sorted list, the behaviour of
`itertools.groupby` with the same key: each run of equal labels
becomes one group carrying the label and the chunk values in order.
Fuel-bounded so the definition reduces inside the kernel. -/
def groupRunsAux : Nat → List (Str × Str) → List (Str × List Str)
  | 0, _ => []
  | _ + 1, [] => []
  | fuel + 1, (k, v) :: rest =>
    (k, v :: (rest.takeWhile (fun p => p.1 = k)).map (·.2)) ::
      groupRunsAux fuel (rest.dropWhile (fun p => p.1 = k))

/-- Consecutive grouping, continued. -/
def groupRuns (l : List (Str × Str)) : List (Str × List Str) :=
  groupRunsAux (l.length + 1) l

/-- The fuel of `groupRunsAux` is irrelevant once adequate. -/
theorem groupRunsAux_congr :
    ∀ (f1 f2 : Nat) (l : List (Str × Str)), l.length < f1 → l.length < f2 →
      groupRunsAux f1 l = groupRunsAux f2 l := by
  intro f1
  induction f1 with
  | zero => intro f2 l h1 _; omega
  | succ f1 ih =>
    intro f2 l h1 h2
    cases f2 with
    | zero => omega
    | succ f2 =>
      cases l with
      | nil => rfl
      | cons kv rest =>
        obtain ⟨k, v⟩ := kv
        simp only [groupRunsAux]
        simp only [List.length_cons] at h1 h2
        have hd := dropWhile_len_le_pair (fun p => decide (p.1 = k)) rest
        rw [ih f2 (rest.dropWhile (fun p => p.1 = k)) (by omega) (by omega)]

/-- `groupRuns` on the empty list. -/
theorem groupRuns_nil : groupRuns [] = [] := rfl

/-- The natural unfolding of `groupRuns`. -/
theorem groupRuns_cons (k v : Str) (rest : List (Str × Str)) :
    groupRuns ((k, v) :: rest) =
      (k, v :: (rest.takeWhile (fun p => p.1 = k)).map (·.2)) ::
        groupRuns (rest.dropWhile (fun p => p.1 = k)) := by
  show groupRunsAux (((k, v) :: rest).length + 1) ((k, v) :: rest) = _
  simp only [groupRunsAux, List.length_cons]
  have hd := dropWhile_len_le_pair (fun p => decide (p.1 = k)) rest
  rw [groupRunsAux_congr (rest.length + 1)
    ((rest.dropWhile (fun p => p.1 = k)).length + 1)
    (rest.dropWhile (fun p => p.1 = k)) (by omega) (by omega)]
  rfl

/-- The grouping step of `Untagged.read` (src lines 132-135):
stable-sort the (label, chunk) pairs by label — Python's `sorted` is a
stable sort, embedded as `List.insertionSort`, whose `orderedInsert`
places each element before its equals and is therefore stable — group
consecutive equal labels, and build the dict mapping each label to
the first chunk (`g.next()[1]`) for unique labels and to the merged
chunks otherwise. -/
def buildChunkDict (sv : Services) (pairs : List (Str × Str)) (orig : Str) : Record :=
  let grouped := groupRuns (List.insertionSort chunkLE pairs)
  buildDict (grouped.map (fun kg =>
    (kg.1, if kg.1 ∈ uniqueItems then kg.2.headI else sv.merge_chunks kg.2 orig)))

/-- `Untagged.read` (src lines 120-138): classify the whole fragment,
chunk it, classify each chunk by position, group the labelled chunks,
then overwrite `type`/`subtype` with the fragment classification and
sanitize. -/
def Untagged_read (sv : Services) (s : Str) : Option Record :=
  let tt := sv.determine_tagtype s
  let chunks := sv.chunkify s
  let chunkTypes := (List.range chunks.length).zipWith (fun pos ch => sv.classify_chunk ch pos) chunks
  let d := buildChunkDict sv (chunkTypes.zip chunks) s
  let d := rset d ("type".toList) tt.1
  let d := rset d ("subtype".toList) tt.2
  sanitize untaggedCrashAttrs d

/-- Case-insensitive prefix test (the effect of `re.IGNORECASE` on
literal parts of a pattern, ASCII model). -/
def ciPrefixB (pat s : Str) : Bool := isPrefixB (pyLower pat) (pyLower s)

/-- First `some` of a list of candidates, used to realise regex
backtracking preference order. -/
def firstSome (l : List (Option Nat)) : Option Nat := (l.filterMap id).head?

/-- The double closing brace. -/
def braces2 : Str := [cbraceC, cbraceC]

/-- The literal head of the vcard pattern. -/
def vcardLit : Str := [obraceC, obraceC] ++ "vcard".toList

/-- Attempt of the vcard pattern (src line 150,
`{{vcard\s*\|.+}}.*$` with `MULTILINE | IGNORECASE`) at the start of
the line suffix `t`: the literal `{{vcard` (case-insensitive), any
whitespace, a `|`, and at least one character before a later `}}` on
the same line.  Because the trailing `.*$` always matches to the end
of the line, a successful attempt consumes the entire suffix. -/
def vcardMatchAt (t : Str) : Bool :=
  ciPrefixB vcardLit t &&
    (match (t.drop vcardLit.length).dropWhile (· ∈ pyWs) with
     | '|' :: tail => containsSub braces2 (tail.drop 1)
     | _ => false)

/-- `re.findall` of the vcard pattern over one physical line: the
engine scans left to right, and the first position whose attempt
succeeds yields a match running to the end of the line (so at most
one match per line). -/
def vcardFindLine (l : Str) : List Str :=
  match ((List.range l.length).filter (fun i => vcardMatchAt (l.drop i))).head? with
  | some i => [l.drop i]
  | none => []

/-- `re.findall(Vcard.search, line, re.MULTILINE | re.IGNORECASE)`
(src line 171): per-line scanning, since without `DOTALL` the pattern
cannot cross a newline and `$` matches before each newline. -/
def reVcardFindall (s : Str) : List Str :=
  ((splitAllChar '\n' s).map vcardFindLine).join

/-- The `Tag.search` alternation `sorted(types)` (src line 177):
`buy|do|drink|eat|see|sleep`, tried left to right. -/
def tagAlts : List Str :=
  ["buy".toList, "do".toList, "drink".toList, "eat".toList, "see".toList, "sleep".toList]

/-- Attempt of `.+>.*?</w>` (with `DOTALL`) on `rest`, the text after
the literal `<w`: the greedy `.+` tries the rightmost `>` first (the
candidate list is descending), and for each such `>` the lazy `.*?`
takes the earliest following `</w>` (case-insensitively, matching the
back-reference `\2` under `IGNORECASE`).  Returns the total number of
characters of `rest` consumed. -/
def tagBodyMatch (w rest : Str) : Option Nat :=
  let close := ['<', '/'] ++ w ++ ['>']
  firstSome ((((List.range rest.length).filter
      (fun p => 1 ≤ p ∧ rest.getD p ' ' = '>')).reverse).map
    (fun p =>
      (((List.range (rest.length + 1)).filter
          (fun q => p + 1 ≤ q ∧ ciPrefixB close (rest.drop q))).head?).map
        (fun q => q + close.length)))

/-- Attempt of the whole tag pattern (src line 177) at the head of
`s`: a `<`, one of the category alternatives in order, then the body.
Returns the match length. -/
def tagMatchAt (s : Str) : Option Nat :=
  match s with
  | '<' :: after =>
    firstSome (tagAlts.map (fun w =>
      if ciPrefixB w after then
        (tagBodyMatch w (after.drop w.length)).map (fun n => 1 + w.length + n)
      else none))
  | _ => none

/-- `re.findall` scan loop for the tag pattern: try each position
left to right, emit the matched text and continue after it (matches
are non-overlapping).  Fuel-bounded; every step consumes at least one
character. -/
def tagFindAux : Nat → Str → List Str
  | 0, _ => []
  | fuel + 1, s =>
    match tagMatchAt s with
    | some n => s.take n :: tagFindAux fuel (s.drop n)
    | none =>
      match s with
      | [] => []
      | _ :: cs => tagFindAux fuel cs

/-- `re.findall(Tag.search, line, re.DOTALL | re.IGNORECASE)` (src
line 219); the code uses the whole match (`l[0]`). -/
def reTagFindall (s : Str) : List Str := tagFindAux (s.length + 1) s

/-- The backtracking candidates for the optional lead-in group
`(?:\*[:*]*\s{0,3})?` of the untagged patterns (src lines 116-117):
when the line starts with `*`, the greedy `[:*]*` run lengths in
descending order, and for each the greedy `\s{0,3}` lengths in
descending order; the empty (group-not-taken) alternative is tried
last.  Each candidate is the number of characters the lead-in
consumes. -/
def untaggedPrefixEnds (l : Str) : List Nat :=
  (match l with
   | '*' :: afterStar =>
     let aMax := (afterStar.takeWhile (fun c => c = ':' ∨ c = '*')).length
     ((List.range (aMax + 1)).reverse).map (fun a =>
       let wsMax := min 3 ((afterStar.drop a).takeWhile (· ∈ pyWs)).length
       ((List.range (wsMax + 1)).reverse).map (fun b => 1 + a + b)) |>.join
   | _ => []) ++ [0]

/-- Attempt of the restrictive untagged body
`'''.{3,40}'''[,. ].{20,2000}` at `rem` (the line suffix after the
lead-in): the greedy `.{3,40}` tries lengths descending; `.` does not
match a newline, but `rem` lies within one line.  Returns the number
of characters consumed. -/
def untaggedBodyRestrictive (rem : Str) : Option Nat :=
  if isPrefixB tripleQuote rem then
    let rem2 := rem.drop 3
    firstSome ((((List.range 38).map (fun i => 40 - i))).map (fun n =>
      if 3 ≤ n ∧ n + 3 ≤ rem2.length ∧ isPrefixB tripleQuote (rem2.drop n) ∧
          rem2.getD (n + 3) ' ' ∈ [',', '.', ' '] ∧ n + 4 ≤ rem2.length ∧
          20 ≤ (rem2.drop (n + 4)).length then
        some (3 + n + 3 + 1 + min 2000 (rem2.drop (n + 4)).length)
      else none))
  else none

/-- Attempt of the generous untagged body `.{3,40}[,. ].{20,2000}` at
`rem`. -/
def untaggedBodyGenerous (rem : Str) : Option Nat :=
  firstSome ((((List.range 38).map (fun i => 40 - i))).map (fun n =>
    if 3 ≤ n ∧ n ≤ rem.length ∧ rem.getD n ' ' ∈ [',', '.', ' '] ∧
        20 ≤ (rem.drop (n + 1)).length then
      some (n + 1 + min 2000 (rem.drop (n + 1)).length)
    else none))

/-- One-line match of an untagged pattern: the `^` anchor (with
`MULTILINE`) ties every match to a line start, so each line carries at
most one match; lead-in candidates are tried in backtracking order. -/
def untaggedFindLine (body : Str → Option Nat) (l : Str) : List Str :=
  match firstSome ((untaggedPrefixEnds l).map (fun pe =>
    (body (l.drop pe)).map (fun n => pe + n))) with
  | some n => [l.take n]
  | none => []

/-- `re.findall(Untagged.search, line, re.MULTILINE)` (src line
143). -/
def reUntaggedRestrictive (s : Str) : List Str :=
  ((splitAllChar '\n' s).map (untaggedFindLine untaggedBodyRestrictive)).join

/-- `re.findall(Untagged.search_generous, line, re.MULTILINE)` (src
line 145). -/
def reUntaggedGenerous (s : Str) : List Str :=
  ((splitAllChar '\n' s).map (untaggedFindLine untaggedBodyGenerous)).join

/-- The `re.findall` calls of the three parser classes, abstracted as
a parameter of the pipeline (the `re` engine is external library
code); `reMatchers` below is the concrete realisation of the three
source patterns used for closed evaluations. -/
structure Matchers where
  tagFindall : Str → List Str
  vcardFindall : Str → List Str
  untaggedRestrictive : Str → List Str
  untaggedGenerous : Str → List Str

/-- The concrete matcher bundle realising the source regexes. -/
def reMatchers : Matchers :=
  { tagFindall := reTagFindall
    vcardFindall := reVcardFindall
    untaggedRestrictive := reUntaggedRestrictive
    untaggedGenerous := reUntaggedGenerous }

/-- `Tag.parse` (src lines 217-220): find the tag matches, strip the
list-item lead-in of each (`lstrip('*: ')`, src line 189), parse with
`ElementSoup` and read. -/
def Tag_parse (sv : Services) (m : Matchers) (line : Str) : Option (List Record) :=
  (m.tagFindall line).mapM (fun x => Tag_read sv (sv.soupParse (pyLstrip ['*', ':', ' '] x)))

/-- `Vcard.parse` (src lines 169-172). -/
def Vcard_parse (sv : Services) (m : Matchers) (line : Str) : Option (List Record) :=
  (m.vcardFindall line).mapM (Vcard_read sv)

/-- `Untagged.parse` (src lines 140-146). -/
def Untagged_parse (sv : Services) (m : Matchers) (restrictive : Bool) (line : Str) :
    Option (List Record) :=
  ((if restrictive then m.untaggedRestrictive else m.untaggedGenerous) line).mapM
    (Untagged_read sv)

/-- The extraction loop of `parse_wikicode` (src lines 228-240):
html-decode, split on the entry delimiter re-attaching a `*` to each
fragment, run the three parsers in order per fragment (the
`except ValueError: raise` handler re-raises, so every parser
exception propagates), and fall back to one generous untagged pass
over the raw fragments when nothing matched. -/
def extractAll (sv : Services) (m : Matchers) (input : Str) : Option (List Record) := do
  let inp := sv.html_decode input
  let lines := splitOnSub ('\n' :: ['*']) inp
  let found ← (lines.map ('*' :: ·)).mapM (fun line => do
    let t ← Tag_parse sv m line
    let v ← Vcard_parse sv m line
    let u ← Untagged_parse sv m true line
    pure (t ++ v ++ u))
  let found := found.join
  if found = [] then do
    let gen ← lines.mapM (Untagged_parse sv m false)
    pure gen.join
  else pure found

/-- Exceptions escaping `parse_wikicode`: the invalid-output-format
`ValueError` raised by the dispatch itself (src line 251), carrying
its message, and any other uncaught exception propagating out of
extraction or serialization (index/key/type/unpacking errors),
collapsed into `.exn`. -/
inductive PyErr where
  | valueError (msg : Str)
  | exn
deriving DecidableEq

/-- The value returned by `parse_wikicode`: the raw record list, or a
list of rendered strings for the other formats. -/
inductive PWOutput where
  | raw (rs : List Record)
  | strs (ss : List Str)
deriving DecidableEq

/-- The output-format dispatch of `parse_wikicode` (src lines
242-251), applied to the extracted records. -/
def dispatchOutput (sv : Services) (found : List Record) (fmt : Str) :
    Except PyErr PWOutput :=
  if fmt = "raw".toList then .ok (.raw found)
  else if fmt = "json".toList then .ok (.strs (found.map sv.jsonDumps))
  else if fmt = "tag".toList then
    match found.mapM (Tag_tostring sv) with
    | none => .error .exn
    | some ls => .ok (.strs ls)
  else if fmt = "vcard".toList then .ok (.strs (found.map (Vcard_tostring sv)))
  else .error (.valueError ("Invalid output outputformat: ".toList ++ fmt))

/-- `parse_wikicode` (src lines 223-251): extraction followed by the
output-format dispatch.  The language resolution (dynamic import with
fallback to english, src lines 224-227) selects the `Services`
bundle and is modelled by the `sv` parameter. -/
def parse_wikicode (sv : Services) (m : Matchers) (input fmt : Str) :
    Except PyErr PWOutput :=
  match extractAll sv m input with
  | none => .error .exn
  | some found => dispatchOutput sv found fmt

/-- The dummy service bundle used to close theorems whose statements
do not depend on the external collaborators. -/
def svDummy : Services :=
  { determine_tagtype := fun _ => ("x".toList, "y".toList)
    chunkify := fun _ => []
    classify_chunk := fun _ _ => []
    merge_chunks := fun _ _ => []
    translate_vcard := id
    format_vcard := fun _ => []
    jsonDumps := fun _ => []
    soupParse := fun _ => .mk [] [] [] []
    html_decode := id }

/-- Equality of strings up to whitespace and quoting: compare after
deleting whitespace and quote characters, the tolerance the round-trip
claim allows. -/
def eqModWsQuote (a b : Str) : Bool :=
  a.filter (fun c => ¬ (c ∈ pyWs ∨ c = '"' ∨ c = quoteC)) =
    b.filter (fun c => ¬ (c ∈ pyWs ∨ c = '"' ∨ c = quoteC))

/-- The dispatch names of the non-identity sanitizer methods other
than `url`: the routes on which a second sanitization pass can still
move a value. -/
def sanNames : List Str :=
  ["description".toList, "directions".toList, "numbers".toList,
   "email".toList, "price".toList]

/-- `Char.toNat` is injective. -/
theorem charToNat_inj {a b : Char} (h : a.toNat = b.toNat) : a = b := by
  apply Char.eq_of_val_eq
  exact UInt32.toNat.inj h

/-- `Char.ofNat` round-trips on small valid codepoints. -/
theorem ofNat_toNat_lt {n : Nat} (h : n < 55296) : (Char.ofNat n).toNat = n := by
  have hv : n.isValidChar := Or.inl h
  simp only [Char.ofNat, dif_pos hv, Char.ofNatAux, Char.toNat]
  rfl

/-- ASCII upper-casing is idempotent. -/
theorem pyUpperC_idem (c : Char) : pyUpperC (pyUpperC c) = pyUpperC c := by
  unfold pyUpperC
  by_cases h : 97 ≤ c.toNat ∧ c.toNat ≤ 122
  · rw [if_pos h]
    have ht : (Char.ofNat (c.toNat - 32)).toNat = c.toNat - 32 := ofNat_toNat_lt (by omega)
    rw [if_neg (by rw [ht]; omega)]
  · rw [if_neg h, if_neg h]

/-- Every string extends its own prefix. -/
theorem isPrefixB_append_self (p r : Str) : isPrefixB p (p ++ r) = true := by
  induction p with
  | nil => rfl
  | cons c cs ih => simp [isPrefixB, ih]

/-- Characterisation of the boolean prefix test. -/
theorem isPrefixB_iff {p s : Str} : isPrefixB p s = true ↔ ∃ t, s = p ++ t := by
  constructor
  · intro h
    induction p generalizing s with
    | nil => exact ⟨s, rfl⟩
    | cons c cs ih =>
      cases s with
      | nil => simp [isPrefixB] at h
      | cons x xs =>
        simp only [isPrefixB, Bool.and_eq_true, decide_eq_true_eq] at h
        obtain ⟨t, ht⟩ := ih h.2
        exact ⟨t, by simp [h.1, ht]⟩
  · rintro ⟨t, rfl⟩
    exact isPrefixB_append_self p t

/-- A prefix occurrence is an occurrence. -/
theorem containsSub_of_isPrefixB {p s : Str} (h : isPrefixB p s = true) :
    containsSub p s = true := by
  cases s with
  | nil => simpa [containsSub] using h
  | cons c cs => simp [containsSub, h]

/-- Occurrences survive prepending. -/
theorem containsSub_append_left {p t : Str} (pre : Str) (h : containsSub p t = true) :
    containsSub p (pre ++ t) = true := by
  induction pre with
  | nil => simpa using h
  | cons c cs ih =>
    show containsSub p (c :: (cs ++ t)) = true
    simp only [containsSub, Bool.or_eq_true]
    exact Or.inr ih

/-- A visible occurrence is an occurrence. -/
theorem containsSub_at (pre p r : Str) : containsSub p (pre ++ (p ++ r)) = true :=
  containsSub_append_left pre (containsSub_of_isPrefixB (isPrefixB_append_self p r))

/-- A visible occurrence is an occurrence (equation form). -/
theorem contains_of_eq {s a p b : Str} (h : s = a ++ (p ++ b)) : containsSub p s = true :=
  h ▸ containsSub_at a p b

/-- Splitting at the first occurrence of a character after an
occurrence-free prefix. -/
theorem splitFirstChar_append {c : Char} {p : Str} (rest : Str) (hp : c ∉ p) :
    splitFirstChar c (p ++ c :: rest) = (p, rest) := by
  induction p with
  | nil => simp [splitFirstChar]
  | cons x xs ih =>
    have hx : x ≠ c := fun hxc => hp (hxc ▸ List.mem_cons_self x xs)
    have ih2 := ih (fun hm => hp (List.mem_cons_of_mem x hm))
    simp only [List.cons_append, splitFirstChar, if_neg hx]
    rw [show xs.append (c :: rest) = xs ++ c :: rest from rfl, ih2]

/-- A nonempty result of `descFinish` ends in terminal punctuation. -/
theorem descFinish_terminal {x r : Str} (h : descFinish x = some r) :
    r.getLast? = some '.' ∨ r.getLast? = some '!' ∨ r.getLast? = some '?' := by
  unfold descFinish at h
  cases hl : x.getLast? with
  | none => rw [hl] at h; exact absurd h (by simp)
  | some last =>
    rw [hl] at h
    simp only [Option.some.injEq] at h
    by_cases hmem : last ∈ terminalChars
    · rw [if_pos hmem] at h
      subst h
      have : last = '.' ∨ last = '!' ∨ last = '?' := by
        simpa [terminalChars] using hmem
      rcases this with h1 | h1 | h1 <;> rw [← h1] <;> simp [hl]
    · rw [if_neg hmem] at h
      subst h
      left
      simp

/-- Claim C8 (amended): every value the description sanitizer returns
is either empty (the input stripped to nothing) or ends in one of the
terminal punctuation characters `.`, `!`, `?`; the original claim
fails on values that strip to empty (see the counterexample). -/
theorem C8_description_terminal (s r : Str) (h : description s = some r) (hne : r ≠ []) :
    r.getLast? = some '.' ∨ r.getLast? = some '!' ∨ r.getLast? = some '?' := by
  unfold description at h
  cases hls : pyLstrip [';', '.', ',', ' '] s with
  | nil =>
    rw [hls] at h
    simp only [Option.some.injEq] at h
    exact absurd h.symm hne
  | cons c rest =>
    rw [hls] at h
    exact descFinish_terminal h

/-- Claim C8 counterexample: on the input `"."` the description
sanitizer returns the empty string, which ends in no terminal
punctuation character, and on the bare double emphasis marker it
raises (returns `none`); the claim as stated fails for both. -/
theorem C8_cex :
    description (".".toList) = some [] ∧ ([] : Str).getLast? = none ∧
      description (doubleQuote) = none := by
  refine ⟨by decide, rfl, by decide⟩

/-- Claim C8 witness: the theorem applied to the concrete input
`"hi"`, whose sanitized form is `"Hi."`. -/
theorem C8_witness :
    ("Hi.".toList).getLast? = some '.' ∨ ("Hi.".toList).getLast? = some '!' ∨
      ("Hi.".toList).getLast? = some '?' :=
  C8_description_terminal ("hi".toList) ("Hi.".toList) (by decide) (by decide)

/-- Claim C9 (amended): the url sanitizer's output always contains
`//`, and when the value does not use wiki-bracket syntax, does not
start with `http://` and contains no `//`, the scheme `http://` is
prepended.  The original claim's stronger reading — that the `//` is
always preceded by a scheme token — fails on inputs such as
scheme-relative `//host` values, which are returned unchanged (see
the counterexample). -/
theorem C9_url_scheme (s : Str) :
    containsSub ("//".toList) (url s) = true ∧
      (isPrefixB ['['] s = false → isPrefixB ("http://".toList) s = false →
        containsSub ("//".toList) s = false → url s = "http://".toList ++ s) := by
  constructor
  · unfold url
    set u := urlStrip s with hu
    by_cases h : ¬ isPrefixB ("http://".toList) u ∧ ¬ containsSub ("//".toList) u
    · rw [if_pos h]
      exact contains_of_eq (show "http://".toList ++ u =
        "http:".toList ++ ("//".toList ++ u) from rfl)
    · rw [if_neg h]
      rcases not_and_or.mp h with h1 | h1
      · have hp : isPrefixB ("http://".toList) u = true := by
          revert h1; cases isPrefixB ("http://".toList) u <;> simp
        obtain ⟨t, ht⟩ := isPrefixB_iff.mp hp
        exact contains_of_eq (show u = "http:".toList ++ ("//".toList ++ t) by
          rw [ht]; rfl)
      · have hc : containsSub ("//".toList) u = true := by
          revert h1; cases containsSub ("//".toList) u <;> simp
        exact hc
  · intro h1 h2 h3
    unfold url urlStrip
    rw [h1]
    simp only [Bool.false_eq_true, if_false]
    rw [if_pos (show _ ∧ _ from ⟨by simp only [h2]; simp, by simp only [h3]; simp⟩)]

/-- Claim C9 counterexample: the scheme-relative value `//x` is
returned unchanged by the url sanitizer — it contains `//` but no
scheme token before it (no `://` anywhere), and no scheme is
prepended although the input carries none. -/
theorem C9_cex :
    url ("//x".toList) = "//x".toList ∧
      containsSub ("://".toList) ("//x".toList) = false := by
  exact ⟨by decide, by decide⟩

/-- Claim C9 witness: the theorem applied to `example.com`, which
receives the `http://` scheme. -/
theorem C9_witness :
    containsSub ("//".toList) (url ("example.com".toList)) = true ∧
      url ("example.com".toList) = "http://".toList ++ "example.com".toList :=
  ⟨(C9_url_scheme ("example.com".toList)).1,
   (C9_url_scheme ("example.com".toList)).2 (by decide) (by decide) (by decide)⟩

/-- Claim C10: whenever the email sanitizer's input contains a colon,
the result is computed from the text after the first colon alone —
two inputs with the same tail after their first colon but arbitrary
different colon-free prefixes (not just `mailto`/`email` transport
prefixes) sanitize identically. -/
theorem C10_email_colon (p1 p2 rest : Str) (h1 : ':' ∉ p1) (h2 : ':' ∉ p2) :
    email (p1 ++ ':' :: rest) = email (p2 ++ ':' :: rest) := by
  have hc1 : containsSub [':'] (p1 ++ ':' :: rest) = true :=
    containsSub_at p1 [':'] rest
  have hc2 : containsSub [':'] (p2 ++ ':' :: rest) = true :=
    containsSub_at p2 [':'] rest
  unfold email
  rw [hc1, hc2, if_pos rfl, if_pos rfl, splitFirstChar_append rest h1,
    splitFirstChar_append rest h2]

/-- Claim C10 witness: the theorem applied to a `mailto:` transport
prefix and an arbitrary other prefix with the same tail. -/
theorem C10_witness :
    email ("mailto".toList ++ ':' :: "a@b.c note".toList) =
      email ("xyz".toList ++ ':' :: "a@b.c note".toList) :=
  C10_email_colon ("mailto".toList) ("xyz".toList) ("a@b.c note".toList)
    (by decide) (by decide)

/-- The recognized output formats of the dispatch (src lines
242-251). -/
def fourFormats : List Str :=
  ["raw".toList, "json".toList, "tag".toList, "vcard".toList]

/-- Claim C2: for every service bundle, matcher bundle and input on
which extraction succeeds, an output format outside
`raw`/`json`/`tag`/`vcard` makes `parse_wikicode` fail with the
invalid-argument `ValueError` whose message names the offending
value, and for each of the four recognized formats `parse_wikicode`
never raises that error (other anomalies surface as other
exceptions). -/
theorem C2_invalid_format (sv : Services) (m : Matchers) (input fmt : Str) :
    (fmt ∉ fourFormats → ∀ found, extractAll sv m input = some found →
      parse_wikicode sv m input fmt =
          .error (.valueError ("Invalid output outputformat: ".toList ++ fmt)) ∧
        containsSub fmt ("Invalid output outputformat: ".toList ++ fmt) = true) ∧
    (fmt ∈ fourFormats → ∀ msg, parse_wikicode sv m input fmt ≠ .error (.valueError msg)) := by
  constructor
  · intro hnot found hex
    have hne : fmt ≠ "raw".toList ∧ fmt ≠ "json".toList ∧ fmt ≠ "tag".toList ∧
        fmt ≠ "vcard".toList := by
      simp only [fourFormats, List.mem_cons, List.not_mem_nil, or_false] at hnot
      push_neg at hnot
      exact ⟨hnot.1, hnot.2.1, hnot.2.2.1, hnot.2.2.2⟩
    constructor
    · unfold parse_wikicode
      rw [hex]
      show dispatchOutput sv found fmt = _
      unfold dispatchOutput
      rw [if_neg hne.1, if_neg hne.2.1, if_neg hne.2.2.1, if_neg hne.2.2.2]
    · have := containsSub_at ("Invalid output outputformat: ".toList) fmt []
      rwa [List.append_nil] at this
  · intro hmem msg
    have hf : fmt = "raw".toList ∨ fmt = "json".toList ∨ fmt = "tag".toList ∨
        fmt = "vcard".toList := by
      simpa [fourFormats] using hmem
    unfold parse_wikicode
    cases hex : extractAll sv m input with
    | none => simp
    | some found =>
      show dispatchOutput sv found fmt ≠ _
      unfold dispatchOutput
      rcases hf with rfl | rfl | rfl | rfl
      · simp
      · rw [if_neg (by decide), if_pos rfl]
        simp
      · rw [if_neg (by decide), if_neg (by decide), if_pos rfl]
        cases found.mapM (Tag_tostring sv) <;> simp
      · rw [if_neg (by decide), if_neg (by decide), if_neg (by decide), if_pos rfl]
        simp

/-- Claim C2 witness: the theorem applied to the unknown format
`xml` (and, for the second part, the recognized format `raw`) on the
empty input, for which extraction succeeds with no records. -/
theorem C2_witness :
    parse_wikicode svDummy reMatchers [] ("xml".toList) =
        .error (.valueError ("Invalid output outputformat: ".toList ++ "xml".toList)) ∧
      ∀ msg, parse_wikicode svDummy reMatchers [] ("raw".toList) ≠ .error (.valueError msg) :=
  ⟨((C2_invalid_format svDummy reMatchers [] ("xml".toList)).1 (by decide) [] rfl).1,
   fun msg => (C2_invalid_format svDummy reMatchers [] ("raw".toList)).2 (by decide) msg⟩

/-- Claim C1 counterexample: on a card entry with a pair lacking `=`
(`vcard|foo`) and the recognized output format `raw`, `parse_wikicode`
raises (the `IndexError` of `p[1]` in `Vcard.read` propagates through
the re-raising `except ValueError` handler) instead of absorbing the
malformed pair and returning a list. -/
theorem C1_cex :
    parse_wikicode svDummy reMatchers
        (([obraceC, obraceC] ++ "vcard|foo".toList ++ [cbraceC, cbraceC] ++ " x".toList))
        ("raw".toList) = .error .exn ∧
      "raw".toList ∈ fourFormats := by
  exact ⟨rfl, by decide⟩

/-- Lookup after a dict store. -/
theorem rget_rset (d : Record) (k k2 v : Str) :
    rget (rset d k2 v) k = if k2 = k then some v else rget d k := by
  induction d with
  | nil =>
    by_cases h : k2 = k <;> simp [rset, rget, h]
  | cons kv rest ih =>
    obtain ⟨k1, v1⟩ := kv
    by_cases h1 : k1 = k2
    · subst h1
      by_cases h : k1 = k <;> simp [rset, rget, h]
    · simp only [rset, if_neg h1, rget]
      by_cases h : k1 = k
      · subst h
        have h2 : ¬ k2 = k1 := fun he => h1 he.symm
        simp [rget, if_neg h2]
      · rw [if_neg h, ih]
        by_cases hk : k2 = k <;> simp [hk, h]

/-- The international-prefix pass never invents a field: a key absent
before it is absent after it. -/
theorem rget_intlStep_none {d2 : Record} {f : Str} (c g : Str) (h : rget d2 f = none) :
    rget (intlStep c d2 g) f = none := by
  unfold intlStep
  cases hg : rget d2 g with
  | none => exact h
  | some v =>
    have hgf : g ≠ f := fun he => by rw [he, h] at hg; exact Option.noConfusion hg
    by_cases hcond : v ≠ [] ∧ ¬ (isPrefixB ['+'] v = true ∨ isPrefixB ['0', '0'] v = true)
    · simp only [if_pos hcond]
      rw [rget_rset, if_neg hgf]
      exact h
    · simp only [if_neg hcond]
      exact h

/-- The international-prefix pass never invents a field: a key absent
before it is absent after it. -/
theorem prefixNumbers_none {d : Record} {f : Str} (h : rget d f = none) :
    rget (prefixNumbers d) f = none := by
  unfold prefixNumbers
  cases rget d ("intl-area-code".toList) with
  | none => exact h
  | some c =>
    show rget (if c = [] then d else List.foldl (intlStep c) d numberFields) f = none
    by_cases hc : c = []
    · rw [if_pos hc]; exact h
    · rw [if_neg hc]
      have main : ∀ (L : List Str) (acc : Record), rget acc f = none →
          rget (L.foldl (intlStep c) acc) f = none := by
        intro L
        induction L with
        | nil => intro acc hacc; exact hacc
        | cons g L' ih =>
          intro acc hacc
          exact ih _ (rget_intlStep_none c g hacc)
      exact main numberFields d h

/-- Every member of an intercalated list occurs contiguously in the
intercalation. -/
theorem intercalate_split {x : Str} {xs : List Str} (sep : Str) (h : x ∈ xs) :
    ∃ a b, List.intercalate sep xs = a ++ (x ++ b) := by
  induction xs with
  | nil => cases h
  | cons y t ih =>
    rcases List.mem_cons.mp h with rfl | hmem
    · cases t with
      | nil => exact ⟨[], [], by simp [List.intercalate, List.intersperse]⟩
      | cons z t2 =>
        refine ⟨[], sep ++ List.intercalate sep (z :: t2), ?_⟩
        simp [List.intercalate, List.intersperse]
    · cases t with
      | nil => cases hmem
      | cons z t2 =>
        obtain ⟨a, b, hab⟩ := ih hmem
        refine ⟨y ++ sep ++ a, b, ?_⟩
        rw [show List.intercalate sep (y :: z :: t2) =
          y ++ sep ++ List.intercalate sep (z :: t2) by
            simp [List.intercalate, List.intersperse]]
        rw [hab]
        simp [List.append_assoc]

/-- Fields of the common template are template fields of the
source's `fields` tuple. -/
theorem templateFields_false_sub {f : Str} (h : f ∈ templateFields false) :
    f ∈ tagFields := by
  simp only [templateFields, Bool.false_eq_true, if_false] at h
  exact List.mem_of_mem_filter h

/-- Fields of the common template belong to every template. -/
theorem templateFields_mono {f : Str} (b : Bool) (h : f ∈ templateFields false) :
    f ∈ templateFields b := by
  cases b
  · exact h
  · simp only [templateFields, if_true]
    exact templateFields_false_sub h

/-- The rendered tag template carries an explicit empty attribute for
every template field absent from the record. -/
theorem renderTag_empty_attr {d : Record} {f : Str} (hf : f ∈ templateFields false)
    (hnone : rget d f = none) :
    containsSub (f ++ ['=', '"', '"']) (renderTag d) = true := by
  have hmem : f ∈ templateFields (tagOf d = "sleep".toList) :=
    templateFields_mono _ hf
  have hpiece : (f ++ ['=', '"'] ++ ((rget d f).getD []) ++ ['"']) ∈
      (templateFields (tagOf d = "sleep".toList)).map
        (fun g => g ++ ['=', '"'] ++ ((rget d g).getD []) ++ ['"']) :=
    List.mem_map_of_mem _ hmem
  rw [hnone] at hpiece
  have hpe : (f ++ ['=', '"'] ++ (Option.getD none []) ++ ['"'] : Str) =
      f ++ ['=', '"', '"'] := by simp
  rw [hpe] at hpiece
  obtain ⟨a, b, hab⟩ := intercalate_split [' '] hpiece
  apply contains_of_eq (a := ['<'] ++ tagOf d ++ [' '] ++ a)
    (b := b ++ ['>'] ++ ((rget d ("description".toList)).getD []) ++
      (['<', '/'] ++ tagOf d ++ ['>']))
  unfold renderTag attrTextOf
  rw [hab]
  simp [List.append_assoc]

/-- Claim C1 (amended): render-time anomalies are absorbed —
serializing any record that carries a `type` never fails, and every
template field missing from the record is rendered as an explicit
empty attribute.  The original claim's assertion that *all*
extraction-time anomalies are also absorbed fails: malformed card
pairs (and tag elements with text but no name) raise through
`parse_wikicode` even for recognized output formats (see the
counterexample). -/
theorem C1_render_absorbs (sv : Services) (d : Record) (ty : Str)
    (h : rget d ("type".toList) = some ty) :
    ∃ s, Tag_tostring sv d = some s ∧
      ∀ f, f ∈ templateFields false → rget d f = none →
        containsSub (f ++ ['=', '"', '"']) s = true := by
  refine ⟨renderTag (prefixNumbers (rset d ("tag".toList)
    (if pyLower ty ∈ tagTypes then pyLower ty else (sv.determine_tagtype (pyLower ty)).1))), ?_, ?_⟩
  · simp only [Tag_tostring, h]
    rfl
  · intro f hf hnone
    have hftag : f ≠ "tag".toList := by
      have hmem : f ∈ tagFields := templateFields_false_sub hf
      have hall : ∀ g ∈ tagFields, g ≠ "tag".toList := by decide
      exact hall f hmem
    apply renderTag_empty_attr hf
    apply prefixNumbers_none
    rw [rget_rset, if_neg (fun he => hftag he.symm)]
    exact hnone

/-- Claim C1 witness: the theorem applied to a record carrying only a
`type`; the rendered output exists and carries an empty `name`
attribute. -/
theorem C1_witness :
    ∃ s, Tag_tostring svDummy [("type".toList, "eat".toList)] = some s ∧
      ∀ f, f ∈ templateFields false →
        rget [("type".toList, "eat".toList)] f = none →
        containsSub (f ++ ['=', '"', '"']) s = true := by
  obtain ⟨s, h1, h2⟩ :=
    C1_render_absorbs svDummy [("type".toList, "eat".toList)] ("eat".toList) rfl
  exact ⟨s, h1, h2⟩

/-- The prefix loop leaves fields other than the processed one
alone. -/
theorem rget_intlStep_ne {d2 : Record} {f g : Str} (c : Str) (hne : g ≠ f) :
    rget (intlStep c d2 g) f = rget d2 f := by
  unfold intlStep
  cases rget d2 g with
  | none => rfl
  | some v =>
    by_cases hcond : v ≠ [] ∧ ¬ (isPrefixB ['+'] v = true ∨ isPrefixB ['0', '0'] v = true)
    · simp only [if_pos hcond]
      rw [rget_rset, if_neg hne]
    · simp only [if_neg hcond]

/-- One step of the prefix loop on its own field. -/
theorem rget_intlStep_self {d2 : Record} {f v : Str} (c : Str) (hv : rget d2 f = some v) :
    rget (intlStep c d2 f) f =
      some (if v ≠ [] ∧ ¬ (isPrefixB ['+'] v = true ∨ isPrefixB ['0', '0'] v = true) then
        c ++ [' '] ++ pyLstrip ['0'] v else v) := by
  unfold intlStep
  rw [hv]
  by_cases hcond : v ≠ [] ∧ ¬ (isPrefixB ['+'] v = true ∨ isPrefixB ['0', '0'] v = true)
  · simp only [if_pos hcond]
    rw [rget_rset, if_pos rfl]
  · simp only [if_neg hcond]
    exact hv

/-- Fields outside the loop's list are untouched by the fold. -/
theorem fold_intl_notmem {f : Str} (c : Str) :
    ∀ (L : List Str) (acc : Record), f ∉ L →
      rget (L.foldl (intlStep c) acc) f = rget acc f := by
  intro L
  induction L with
  | nil => intro acc _; rfl
  | cons g L' ih =>
    intro acc hnot
    have hgf : g ≠ f := fun he => hnot (he ▸ List.mem_cons_self g L')
    have hfl : f ∉ L' := fun hm => hnot (List.mem_cons_of_mem g hm)
    show rget (L'.foldl (intlStep c) (intlStep c acc g)) f = rget acc f
    rw [ih _ hfl, rget_intlStep_ne c hgf]

/-- The fold of the prefix loop transforms each listed field exactly
once. -/
theorem fold_intl_mem {f v : Str} (c : Str) :
    ∀ (L : List Str) (acc : Record), f ∈ L → L.Nodup → rget acc f = some v →
      rget (L.foldl (intlStep c) acc) f =
        some (if v ≠ [] ∧ ¬ (isPrefixB ['+'] v = true ∨ isPrefixB ['0', '0'] v = true) then
          c ++ [' '] ++ pyLstrip ['0'] v else v) := by
  intro L
  induction L with
  | nil => intro acc hmem; cases hmem
  | cons g L' ih =>
    intro acc hmem hnd hv
    rcases List.mem_cons.mp hmem with rfl | hmem2
    · have hfl : f ∉ L' := (List.nodup_cons.mp hnd).1
      show rget (L'.foldl (intlStep c) (intlStep c acc f)) f = _
      rw [fold_intl_notmem c L' _ hfl]
      exact rget_intlStep_self c hv
    · have hgf : g ≠ f := by
        rintro rfl
        exact (List.nodup_cons.mp hnd).1 hmem2
      show rget (L'.foldl (intlStep c) (intlStep c acc g)) f = _
      exact ih _ hmem2 (List.nodup_cons.mp hnd).2 (by rw [rget_intlStep_ne c hgf]; exact hv)

/-- Stripping leading zeros from a value that does not start with two
zeros strips at most the single leading zero. -/
theorem lstrip_zero_single {v : Str} (hv : v ≠ [])
    (h00 : isPrefixB ['0', '0'] v = false) :
    pyLstrip ['0'] v = if isPrefixB ['0'] v then v.drop 1 else v := by
  cases v with
  | nil => cases hv rfl
  | cons c rest =>
    by_cases hc : c = '0'
    · subst hc
      have hrest : rest.dropWhile (· ∈ (['0'] : List Char)) = rest := by
        cases rest with
        | nil => rfl
        | cons r0 rest2 =>
          have hr0 : r0 ≠ '0' := by
            intro he
            rw [he] at h00
            simp [isPrefixB] at h00
          rw [List.dropWhile_cons, if_neg (by simp [hr0])]
      have h1 : pyLstrip ['0'] ('0' :: rest) = rest := by
        rw [pyLstrip, List.dropWhile_cons, if_pos (by decide)]
        exact hrest
      have hpre : isPrefixB ['0'] ('0' :: rest) = true := rfl
      rw [h1, hpre]
      simp
    · have hc2 : ¬ ('0' = c) := fun he => hc he.symm
      have hpre : isPrefixB ['0'] (c :: rest) = false := by
        simp [isPrefixB, hc2]
      have h1 : pyLstrip ['0'] (c :: rest) = c :: rest := by
        rw [pyLstrip, List.dropWhile_cons, if_neg (by simp [hc])]
      rw [h1, hpre]
      simp

/-- Claim C6: when a record carries a nonempty `intl-area-code`, the
prefix pass of the tag serializer maps every nonempty
contact-number field not beginning with `+` or `00` to the code, a
space and the number stripped of its leading zero (exactly one zero
can be stripped, since the value does not start with `00`), and
leaves fields beginning with `+` or `00` unchanged. -/
theorem C6_intl_prefix (d : Record) (c f v : Str)
    (hc : rget d ("intl-area-code".toList) = some c) (hcne : c ≠ [])
    (hf : f ∈ numberFields) (hv : rget d f = some v) (hvne : v ≠ []) :
    rget (prefixNumbers d) f =
        some (if isPrefixB ['+'] v || isPrefixB ['0', '0'] v then v
          else c ++ [' '] ++ pyLstrip ['0'] v) ∧
      ((isPrefixB ['+'] v || isPrefixB ['0', '0'] v) = false →
        pyLstrip ['0'] v = if isPrefixB ['0'] v then v.drop 1 else v) := by
  constructor
  · unfold prefixNumbers
    rw [hc]
    show rget (if c = [] then d else List.foldl (intlStep c) d numberFields) f = _
    rw [if_neg hcne]
    have hnd : numberFields.Nodup := by decide
    rw [fold_intl_mem c numberFields d hf hnd hv]
    by_cases hx : isPrefixB ['+'] v = true ∨ isPrefixB ['0', '0'] v = true
    · have hb : (isPrefixB ['+'] v || isPrefixB ['0', '0'] v) = true := by
        rcases hx with hx | hx <;> simp [hx]
      rw [hb]
      simp only [if_true]
      rw [if_neg (fun hcond => hcond.2 hx)]
    · have hb : (isPrefixB ['+'] v || isPrefixB ['0', '0'] v) = false := by
        push_neg at hx
        simp [hx.1, hx.2]
      rw [hb]
      simp only [Bool.false_eq_true, if_false]
      rw [if_pos ⟨hvne, hx⟩]
  · intro hfalse
    apply lstrip_zero_single hvne
    revert hfalse
    cases isPrefixB ['0', '0'] v <;> simp

/-- Claim C6 witness: the theorem applied to a record with area code
`49` and phone `089 123`; the serialized number becomes `49 89 123`
(one leading zero stripped). -/
theorem C6_witness :
    rget (prefixNumbers [("intl-area-code".toList, "49".toList),
        ("phone".toList, "089 123".toList)]) ("phone".toList) =
      some ("49 89 123".toList) ∧
    pyLstrip ['0'] ("089 123".toList) = ("089 123".toList).drop 1 := by
  have h := C6_intl_prefix
    [("intl-area-code".toList, "49".toList), ("phone".toList, "089 123".toList)]
    ("49".toList) ("phone".toList) ("089 123".toList)
    (by decide) (by decide) (by decide) (by decide) (by decide)
  refine ⟨h.1.trans (by decide), (h.2 (by decide)).trans (by decide)⟩

/-- The sanitizer reports the squeezed key. -/
theorem sanitize_item_fst {cs : List Str} {k v : Str} {p : Str × Str}
    (h : sanitize_item cs k v = some p) : p.1 = squeeze k := by
  unfold sanitize_item at h
  by_cases hv : squeeze v = []
  · rw [if_pos hv] at h
    cases h
    rfl
  · rw [if_neg hv] at h
    cases ha : applySan cs (routeName (squeeze k)) (squeeze v) with
    | none => rw [ha] at h; cases h
    | some w => rw [ha] at h; cases h; rfl

/-- Sanitizing keeps every key (squeezed). -/
theorem sanitize_mem {cs : List Str} {d r : Record} {k v : Str}
    (hs : sanitize cs d = some r) (hm : (k, v) ∈ d) : ∃ w, (squeeze k, w) ∈ r := by
  induction d generalizing r with
  | nil => cases hm
  | cons kv rest ih =>
    unfold sanitize at hs
    cases h1 : sanitize_item cs kv.1 kv.2 with
    | none => rw [h1] at hs; cases hs
    | some kv1 =>
      rw [h1] at hs
      cases h2 : sanitize cs rest with
      | none => rw [h2] at hs; cases hs
      | some rest1 =>
        rw [h2] at hs
        have hs3 : kv1 :: rest1 = r := Option.some.inj hs
        subst hs3
        rcases List.mem_cons.mp hm with heq | hmem
        · refine ⟨kv1.2, ?_⟩
          have hfst : kv1.1 = squeeze k := by
            rw [← heq] at h1
            exact sanitize_item_fst h1
          rw [← hfst]
          exact List.mem_cons_self _ _
        · obtain ⟨w, hw⟩ := ih h2 hmem
          exact ⟨w, List.mem_cons_of_mem _ hw⟩

/-- A present key looks up to something. -/
theorem rget_isSome_of_mem {r : Record} {k w : Str} (h : (k, w) ∈ r) :
    (rget r k).isSome = true := by
  induction r with
  | nil => cases h
  | cons kv rest ih =>
    obtain ⟨k1, v1⟩ := kv
    by_cases hk : k1 = k
    · simp [rget, hk]
    · rcases List.mem_cons.mp h with heq | hmem
      · cases heq; exact absurd rfl hk
      · simp only [rget, if_neg hk]
        exact ih hmem

/-- A stored key is present. -/
theorem rset_mem_self (d : Record) (k v : Str) : ∃ w, (k, w) ∈ rset d k v := by
  induction d with
  | nil => exact ⟨v, List.mem_singleton.mpr rfl⟩
  | cons kv rest ih =>
    obtain ⟨k1, v1⟩ := kv
    by_cases hk : k1 = k
    · exact ⟨v, by simp [rset, hk]⟩
    · obtain ⟨w, hw⟩ := ih
      exact ⟨w, by simp only [rset, if_neg hk]; exact List.mem_cons_of_mem _ hw⟩

/-- Storing one key keeps the others present. -/
theorem rset_mem_other {d : Record} {k w : Str} (k2 v : Str) (h : (k, w) ∈ d)
    (hne : k ≠ k2) : (k, w) ∈ rset d k2 v := by
  induction d with
  | nil => cases h
  | cons kv rest ih =>
    obtain ⟨k1, v1⟩ := kv
    by_cases hk : k1 = k2
    · subst hk
      rcases List.mem_cons.mp h with heq | hmem
      · cases heq; exact absurd rfl hne
      · simp only [rset, if_pos rfl]
        exact List.mem_cons_of_mem _ hmem
    · simp only [rset, if_neg hk]
      rcases List.mem_cons.mp h with heq | hmem
      · exact heq ▸ List.mem_cons_self _ _
      · exact List.mem_cons_of_mem _ (ih hmem)

/-- A record whose sanitization succeeds keeps every squeeze-fixed key
present in the pre-sanitization dict. -/
theorem sanitize_key_present {cs : List Str} {d r : Record} {k : Str}
    (hs : sanitize cs d = some r) (hk : ∃ w, (k, w) ∈ d) (hsq : squeeze k = k) :
    (rget r k).isSome = true := by
  obtain ⟨w, hw⟩ := hk
  obtain ⟨w2, hw2⟩ := sanitize_mem hs hw
  rw [hsq] at hw2
  exact rget_isSome_of_mem hw2

/-- Claim C4 (amended): every record the Untagged extractor produces
carries both `type` and `subtype` (overwritten from the fragment
classification), and every record the Tag extractor produces carries
`type` (the element's tag name); the original claim fails for the
Card extractor, which sets neither key when the card has no such
pairs and no description (and for Tag's `subtype` on elements without
inner text) — see the counterexample. -/
theorem C4_type_subtype :
    (∀ (sv : Services) (s : Str) (r : Record), Untagged_read sv s = some r →
      (rget r ("type".toList)).isSome = true ∧ (rget r ("subtype".toList)).isSome = true) ∧
    (∀ (sv : Services) (t0 : Element) (r : Record), Tag_read sv t0 = some r →
      (rget r ("type".toList)).isSome = true) := by
  constructor
  · intro sv s r h
    have h2 : sanitize untaggedCrashAttrs
        (rset (rset (buildChunkDict sv
            (((List.range (sv.chunkify s).length).zipWith
              (fun pos ch => sv.classify_chunk ch pos) (sv.chunkify s)).zip (sv.chunkify s)) s)
          ("type".toList) (sv.determine_tagtype s).1)
          ("subtype".toList) (sv.determine_tagtype s).2) = some r := h
    constructor
    · apply sanitize_key_present h2 ?_ (by decide)
      obtain ⟨w, hw⟩ := rset_mem_self (buildChunkDict sv
        (((List.range (sv.chunkify s).length).zipWith
          (fun pos ch => sv.classify_chunk ch pos) (sv.chunkify s)).zip (sv.chunkify s)) s)
        ("type".toList) (sv.determine_tagtype s).1
      exact ⟨w, rset_mem_other _ _ hw (by decide)⟩
    · exact sanitize_key_present h2 (rset_mem_self _ ("subtype".toList) _) (by decide)
  · intro sv t0 r h
    unfold Tag_read at h
    cases hu : (if t0.tag = "html".toList then t0.children.head? else some t0) with
    | none =>
      rw [hu] at h
      exact Option.noConfusion h
    | some t =>
      rw [hu] at h
      have h1 : (match tagBuild sv t with
          | none => none
          | some d => sanitize tagCrashAttrs d) = some r := h
      cases hb : tagBuild sv t with
      | none =>
        rw [hb] at h1
        exact Option.noConfusion h1
      | some d =>
        rw [hb] at h1
        have h3 : sanitize tagCrashAttrs d = some r := h1
        have hdty : ∃ w, (("type".toList : Str), w) ∈ d := by
          unfold tagBuild at hb
          by_cases htext : t.text ≠ []
          · rw [if_pos htext] at hb
            have hb2 : (match rget (rset (rset (buildDict t.attrs) ("type".toList) t.tag)
                  ("description".toList) t.text) ("name".toList) with
                | none => none
                | some nm =>
                  some (rset (rset (rset (buildDict t.attrs) ("type".toList) t.tag)
                    ("description".toList) t.text) ("subtype".toList)
                    (sv.determine_tagtype (nm ++ [' '] ++ t.text)).2)) = some d := hb
            cases hnm : rget (rset (rset (buildDict t.attrs) ("type".toList) t.tag)
                ("description".toList) t.text) ("name".toList) with
            | none =>
              rw [hnm] at hb2
              exact Option.noConfusion hb2
            | some nm =>
              rw [hnm] at hb2
              have hd2 : rset (rset (rset (buildDict t.attrs) ("type".toList) t.tag)
                  ("description".toList) t.text) ("subtype".toList)
                  (sv.determine_tagtype (nm ++ [' '] ++ t.text)).2 = d :=
                Option.some.inj hb2
              obtain ⟨w, hw⟩ := rset_mem_self (buildDict t.attrs) ("type".toList) t.tag
              exact ⟨w, hd2 ▸ rset_mem_other _ _ (rset_mem_other _ _ hw (by decide))
                (by decide)⟩
          · rw [if_neg htext] at hb
            have hd2 : rset (buildDict t.attrs) ("type".toList) t.tag = d :=
              Option.some.inj hb
            obtain ⟨w, hw⟩ := rset_mem_self (buildDict t.attrs) ("type".toList) t.tag
            exact ⟨w, hd2 ▸ hw⟩
        exact sanitize_key_present h3 hdty (by decide)

/-- Claim C4 counterexample: a card entry with only a `name` pair and
no description yields a record with neither `type` nor `subtype`, and
a tag element without inner text yields a record without `subtype`. -/
theorem C4_cex :
    ((Vcard_read svDummy
        ([obraceC, obraceC] ++ "vcard|name=Foo".toList ++ [cbraceC, cbraceC])).map
      (fun r => (rget r ("type".toList), rget r ("subtype".toList)))) = some (none, none) ∧
    ((Tag_read svDummy (.mk ("eat".toList) [("name".toList, "X".toList)] [] [])).map
      (fun r => rget r ("subtype".toList))) = some none := by
  exact ⟨rfl, rfl⟩

/-- Claim C4 witness: the theorem applied to concrete extractions. -/
theorem C4_witness :
    ((rget [("type".toList, "x".toList), ("subtype".toList, "y".toList)]
        ("type".toList)).isSome = true ∧
      (rget [("type".toList, "x".toList), ("subtype".toList, "y".toList)]
        ("subtype".toList)).isSome = true) ∧
    (rget [("name".toList, "X".toList), ("type".toList, "eat".toList)]
      ("type".toList)).isSome = true :=
  ⟨C4_type_subtype.1 svDummy [] _ rfl,
   C4_type_subtype.2 svDummy (.mk ("eat".toList) [("name".toList, "X".toList)] [] []) _ rfl⟩

/-- Key-filtered extraction commutes with one stable ordered insert:
the inserted element lands before every element of equal key, and
elements of other keys do not disturb the filter. -/
theorem filter_orderedInsert (k : Str) (x : Str × Str) (l : List (Str × Str)) :
    (List.orderedInsert chunkLE x l).filter (fun p => p.1 = k) =
      if x.1 = k then x :: l.filter (fun p => p.1 = k)
      else l.filter (fun p => p.1 = k) := by
  induction l with
  | nil =>
    by_cases hx : x.1 = k <;> simp [List.orderedInsert, hx]
  | cons b bs ih =>
    by_cases hle : chunkLE x b
    · rw [List.orderedInsert, if_pos hle]
      by_cases hx : x.1 = k <;> by_cases hb : b.1 = k <;> simp [hx, hb]
    · rw [List.orderedInsert, if_neg hle]
      by_cases hb : b.1 = k
      · have hx : ¬ x.1 = k := by
          intro hx
          exact hle (le_of_eq (hx.trans hb.symm))
        rw [if_neg hx]
        rw [if_neg hx] at ih
        simp [hb, ih]
      · simp only [List.filter_cons, decide_eq_true_eq, if_neg hb]
        rw [ih]

/-- Stability of the embedded sort: filtering by an exact key
commutes with `insertionSort`, so equal-key elements keep their
original order (as with Python's stable `sorted`). -/
theorem filter_insertionSort (k : Str) (l : List (Str × Str)) :
    (List.insertionSort chunkLE l).filter (fun p => p.1 = k) =
      l.filter (fun p => p.1 = k) := by
  induction l with
  | nil => rfl
  | cons x xs ih =>
    rw [List.insertionSort, filter_orderedInsert]
    by_cases hx : x.1 = k
    · rw [if_pos hx, ih]
      simp [List.filter_cons, hx]
    · rw [if_neg hx, ih]
      simp [List.filter_cons, hx]

/-- On a sorted pair list headed by key `k1`, the leading run of key
`k1` is the whole set of `k1`-keyed elements: taking while the key
matches equals filtering. -/
theorem sorted_takeWhile_eq_filter {k1 : Str} {v1 : Str} :
    ∀ {rest : List (Str × Str)}, List.Pairwise chunkLE ((k1, v1) :: rest) →
      rest.takeWhile (fun p => p.1 = k1) = rest.filter (fun p => p.1 = k1) := by
  intro rest
  induction rest with
  | nil => intro _; rfl
  | cons b bs ih =>
    intro hp
    by_cases hb : b.1 = k1
    · have hp2 : List.Pairwise chunkLE ((k1, v1) :: bs) := by
        refine hp.sublist ?_
        exact List.Sublist.cons₂ _ (List.sublist_cons_self b bs)
      rw [List.takeWhile_cons, List.filter_cons]
      simp [hb, ih hp2]
    · have hnone : bs.filter (fun p => p.1 = k1) = [] := by
        rw [List.filter_eq_nil_iff]
        intro z hz
        simp only [decide_eq_true_eq]
        intro hzk
        have h1 : chunkLE (k1, v1) b := List.rel_of_pairwise_cons hp (List.mem_cons_self b bs)
        have h2 : chunkLE b z :=
          List.rel_of_pairwise_cons (List.pairwise_cons.mp hp).2 hz
        have : b.1 = k1 := le_antisymm (hzk ▸ h2) h1
        exact hb this
      rw [List.takeWhile_cons, List.filter_cons]
      simp [hb, hnone]

/-- On a sorted pair list headed by key `k1`, no element after the
leading `k1`-run carries key `k1` again. -/
theorem sorted_dropWhile_no_key {k1 : Str} {v1 : Str} {rest : List (Str × Str)}
    (hp : List.Pairwise chunkLE ((k1, v1) :: rest)) :
    (rest.dropWhile (fun p => p.1 = k1)).filter (fun p => p.1 = k1) = [] := by
  have hsplit := List.takeWhile_append_dropWhile (fun p => decide (p.1 = k1)) rest
  have hfr : rest.filter (fun p => p.1 = k1) =
      rest.takeWhile (fun p => p.1 = k1) ++
        (rest.dropWhile (fun p => p.1 = k1)).filter (fun p => p.1 = k1) := by
    conv_lhs => rw [← hsplit]
    rw [List.filter_append]
    congr 1
    rw [List.filter_eq_self]
    intro a ha
    exact @List.mem_takeWhile_imp _ (fun p => decide (p.1 = k1)) rest a ha
  have htf := sorted_takeWhile_eq_filter hp
  rw [htf] at hfr
  have hlen := congrArg List.length hfr
  rw [List.length_append] at hlen
  have hz : ((rest.dropWhile (fun p => p.1 = k1)).filter (fun p => p.1 = k1)).length = 0 := by
    omega
  exact List.length_eq_zero.mp hz

/-- On a sorted pair list, `groupRuns` followed by group lookup
recovers the filtered elements of each key: the group for `k` holds
exactly the values of the `k`-keyed elements, in order. -/
theorem groupRuns_find (k : Str) :
    ∀ (n : Nat) (l : List (Str × Str)), l.length ≤ n → List.Pairwise chunkLE l →
      (groupRuns l).find? (fun kg => kg.1 = k) =
        (if l.filter (fun p => p.1 = k) = [] then none
         else some (k, (l.filter (fun p => p.1 = k)).map (·.2))) := by
  intro n
  induction n with
  | zero =>
    intro l hlen _
    have : l = [] := List.length_eq_zero.mp (by omega)
    subst this
    rfl
  | succ n ih =>
    intro l hlen hp
    cases l with
    | nil => rfl
    | cons kv rest =>
      obtain ⟨k1, v1⟩ := kv
      rw [groupRuns_cons]
      by_cases hk1 : k1 = k
      · subst hk1
        have hfc : ((k1, v1) :: rest).filter (fun p => p.1 = k1) =
            (k1, v1) :: rest.filter (fun p => p.1 = k1) := by
          rw [List.filter_cons]
          simp
        rw [List.find?_cons_of_pos _ (by simp), hfc, if_neg (by simp)]
        simp only [List.map_cons]
        rw [sorted_takeWhile_eq_filter hp]
      · rw [List.find?_cons_of_neg _ (by simp [hk1])]
        have hplen := dropWhile_len_le_pair (fun p => decide (p.1 = k1)) rest
        simp only [List.length_cons] at hlen
        have hpw : List.Pairwise chunkLE (rest.dropWhile (fun p => p.1 = k1)) :=
          List.Pairwise.sublist (List.dropWhile_sublist _) (List.pairwise_cons.mp hp).2
        rw [ih _ (by omega) hpw]
        have hfeq : (rest.dropWhile (fun p => p.1 = k1)).filter (fun p => p.1 = k) =
            ((k1, v1) :: rest).filter (fun p => p.1 = k) := by
          rw [List.filter_cons, if_neg (by simp [hk1])]
          conv_rhs => rw [← List.takeWhile_append_dropWhile (fun p => decide (p.1 = k1)) rest]
          rw [List.filter_append]
          have htw : (rest.takeWhile (fun p => p.1 = k1)).filter (fun p => p.1 = k) = [] := by
            rw [List.filter_eq_nil_iff]
            intro z hz
            have := @List.mem_takeWhile_imp _ (fun p => decide (p.1 = k1)) rest z hz
            simp only [decide_eq_true_eq] at this ⊢
            rw [this]
            exact hk1
          rw [htw, List.nil_append]
        rw [hfeq]

/-- On a sorted pair list the group keys are distinct. -/
theorem groupRuns_keys_nodup :
    ∀ (n : Nat) (l : List (Str × Str)), l.length ≤ n → List.Pairwise chunkLE l →
      ((groupRuns l).map (·.1)).Nodup := by
  intro n
  induction n with
  | zero =>
    intro l hlen _
    have : l = [] := List.length_eq_zero.mp (by omega)
    subst this
    simp [groupRuns_nil]
  | succ n ih =>
    intro l hlen hp
    cases l with
    | nil => simp [groupRuns_nil]
    | cons kv rest =>
      obtain ⟨k1, v1⟩ := kv
      rw [groupRuns_cons]
      simp only [List.map_cons, List.nodup_cons]
      have hplen := dropWhile_len_le_pair (fun p => decide (p.1 = k1)) rest
      simp only [List.length_cons] at hlen
      have hpw : List.Pairwise chunkLE (rest.dropWhile (fun p => p.1 = k1)) :=
        List.Pairwise.sublist (List.dropWhile_sublist _) (List.pairwise_cons.mp hp).2
      constructor
      · intro hmem
        obtain ⟨kg, hkg, hkgk⟩ := List.mem_map.mp hmem
        have hsome : ((groupRuns (rest.dropWhile (fun p => p.1 = k1))).find?
            (fun kg => kg.1 = k1)).isSome = true :=
          List.find?_isSome.mpr ⟨kg, hkg, by simp [hkgk]⟩
        rw [groupRuns_find k1 (rest.dropWhile (fun p => p.1 = k1)).length _ le_rfl hpw,
          sorted_dropWhile_no_key hp] at hsome
        simp at hsome
      · exact ih _ (by omega) hpw

/-- Key-predicate search commutes with a key-preserving map. -/
theorem find?_map_key (F : Str × List Str → Str) (k : Str) :
    ∀ (G : List (Str × List Str)),
      ((G.map (fun kg => (kg.1, F kg))).find? (fun kv => kv.1 = k)) =
        (G.find? (fun kg => kg.1 = k)).map (fun kg => (kg.1, F kg)) := by
  intro G
  induction G with
  | nil => rfl
  | cons g t ih =>
    by_cases hg : g.1 = k
    · rw [List.map_cons, List.find?_cons_of_pos _ (by simp [hg]),
        List.find?_cons_of_pos _ (by simp [hg])]
      rfl
    · rw [List.map_cons, List.find?_cons_of_neg _ (by simp [hg]),
        List.find?_cons_of_neg _ (by simp [hg])]
      exact ih

/-- Dict lookup after building from pairs with distinct keys finds the
(unique) pair. -/
theorem rget_foldl_rset_nodup :
    ∀ (kvs : List (Str × Str)) (acc : Record) (k : Str), ((kvs.map (·.1)).Nodup) →
      rget (kvs.foldl (fun d kv => rset d kv.1 kv.2) acc) k =
        (match kvs.find? (fun kv => kv.1 = k) with
         | some kv => some kv.2
         | none => rget acc k) := by
  intro kvs
  induction kvs with
  | nil => intro acc k _; rfl
  | cons kv rest ih =>
    intro acc k hnd
    obtain ⟨k1, v1⟩ := kv
    simp only [List.map_cons, List.nodup_cons] at hnd
    show rget (rest.foldl (fun d kv => rset d kv.1 kv.2) (rset acc k1 v1)) k = _
    rw [ih (rset acc k1 v1) k hnd.2]
    by_cases hk1 : k1 = k
    · subst hk1
      rw [List.find?_cons_of_pos _ (by simp)]
      have hnone : rest.find? (fun kv => kv.1 = k1) = none := by
        rw [List.find?_eq_none]
        intro z hz
        simp only [decide_eq_true_eq]
        intro hzk
        exact hnd.1 (List.mem_map.mpr ⟨z, hz, hzk⟩)
      rw [hnone]
      rw [rget_rset, if_pos rfl]
    · rw [List.find?_cons_of_neg _ (by simp [hk1])]
      cases hr : rest.find? (fun kv => kv.1 = k) with
      | some x => rfl
      | none =>
        rw [rget_rset, if_neg hk1]

/-- Dict lookup after building from arbitrary pairs: the value of the
last pair carrying the key wins, as with Python's `dict()`. -/
theorem rget_foldl_rset_last :
    ∀ (kvs : List (Str × Str)) (acc : Record) (k : Str),
      rget (kvs.foldl (fun d kv => rset d kv.1 kv.2) acc) k =
        (match kvs.reverse.find? (fun kv => kv.1 = k) with
         | some kv => some kv.2
         | none => rget acc k) := by
  intro kvs
  induction kvs with
  | nil => intro acc k; rfl
  | cons kv rest ih =>
    intro acc k
    obtain ⟨k1, v1⟩ := kv
    show rget (rest.foldl (fun d kv => rset d kv.1 kv.2) (rset acc k1 v1)) k = _
    rw [ih (rset acc k1 v1) k]
    rw [List.reverse_cons, List.find?_append]
    cases h1 : rest.reverse.find? (fun kv => kv.1 = k) with
    | some x => rfl
    | none =>
      by_cases hk1 : k1 = k
      · subst hk1
        rw [rget_rset, if_pos rfl]
        simp [List.find?, Option.or]
      · rw [rget_rset, if_neg hk1]
        simp [List.find?, hk1, Option.or]

/-- Claim C7 (amended): the two duplicate-resolution rules of the
extractors, as the code implements them.  For the Card extractor's
key/value dict, the *last* pair carrying a key wins (Python `dict()`
semantics) — so the original first-wins claim fails there (see the
counterexample).  For the Untagged extractor's chunk grouping, a
unique-set label keeps exactly the *first* chunk carrying it, in
original fragment order (stability of the sort plus `g.next()`). -/
theorem C7_unique_first :
    (∀ (kvs : List (Str × Str)) (k : Str),
      rget (buildDict kvs) k = ((kvs.reverse.find? (fun kv => kv.1 = k)).map (·.2))) ∧
    (∀ (sv : Services) (pairs : List (Str × Str)) (orig k : Str), k ∈ uniqueItems →
      rget (buildChunkDict sv pairs orig) k =
        ((pairs.filter (fun p => p.1 = k)).head?).map (·.2)) := by
  constructor
  · intro kvs k
    show rget (kvs.foldl (fun d kv => rset d kv.1 kv.2) []) k = _
    rw [rget_foldl_rset_last kvs [] k]
    cases kvs.reverse.find? (fun kv => kv.1 = k) with
    | some x => rfl
    | none => rfl
  · intro sv pairs orig k hk
    have hsorted : List.Pairwise chunkLE (List.insertionSort chunkLE pairs) :=
      List.sorted_insertionSort chunkLE pairs
    show rget (buildDict (((groupRuns (List.insertionSort chunkLE pairs))).map
      (fun kg => (kg.1, if kg.1 ∈ uniqueItems then kg.2.headI
        else sv.merge_chunks kg.2 orig)))) k = _
    have hnodup : ((((groupRuns (List.insertionSort chunkLE pairs))).map
        (fun kg => (kg.1, if kg.1 ∈ uniqueItems then kg.2.headI
          else sv.merge_chunks kg.2 orig))).map (·.1)).Nodup := by
      rw [List.map_map]
      exact groupRuns_keys_nodup (List.insertionSort chunkLE pairs).length _ le_rfl hsorted
    show rget ((((groupRuns (List.insertionSort chunkLE pairs))).map
      (fun kg => (kg.1, if kg.1 ∈ uniqueItems then kg.2.headI
        else sv.merge_chunks kg.2 orig))).foldl (fun d kv => rset d kv.1 kv.2) []) k = _
    rw [rget_foldl_rset_nodup _ [] k hnodup]
    rw [find?_map_key (fun kg => if kg.1 ∈ uniqueItems then kg.2.headI
      else sv.merge_chunks kg.2 orig) k]
    rw [groupRuns_find k (List.insertionSort chunkLE pairs).length _ le_rfl hsorted]
    rw [filter_insertionSort]
    by_cases hfe : pairs.filter (fun p => p.1 = k) = []
    · rw [if_pos hfe, hfe]
      rfl
    · rw [if_neg hfe]
      cases hc : pairs.filter (fun p => p.1 = k) with
      | nil => exact absurd hc hfe
      | cons x xs =>
        show some (if k ∈ uniqueItems then (x.2 :: xs.map (·.2)).headI
          else sv.merge_chunks (x.2 :: xs.map (·.2)) orig) = _
        rw [if_pos hk]
        rfl

/-- Claim C7 counterexample: a card with two `name` pairs keeps the
second (`B`), not the first (`A`) — Python `dict()` keeps the last
duplicate. -/
theorem C7_cex :
    ((Vcard_read svDummy
        ([obraceC, obraceC] ++ "vcard|name=A|name=B".toList ++ [cbraceC, cbraceC])).map
      (fun r => rget r ("name".toList))) = some (some ("B".toList)) ∧
      some (some ("B".toList)) ≠ some (some ("A".toList)) := by
  exact ⟨rfl, by decide⟩

/-- Claim C7 witness: the theorem applied to a concrete chunk list
with two `name` chunks (first wins in the Untagged grouping) and a
concrete pair list with two duplicate keys (last wins in the Card
dict). -/
theorem C7_witness :
    rget (buildChunkDict svDummy
        [("name".toList, "A".toList), ("name".toList, "B".toList)] []) ("name".toList) =
      some ("A".toList) ∧
    rget (buildDict [("name".toList, "A".toList), ("name".toList, "B".toList)])
        ("name".toList) = some ("B".toList) := by
  constructor
  · exact (C7_unique_first.2 svDummy
      [("name".toList, "A".toList), ("name".toList, "B".toList)] [] ("name".toList)
      (by decide)).trans (by decide)
  · exact (C7_unique_first.1
      [("name".toList, "A".toList), ("name".toList, "B".toList)] ("name".toList)).trans
      (by decide)

/-- Storing an absent key appends the entry. -/
theorem rset_append {d : Record} {k : Str} (v : Str) (h : ∀ e ∈ d, e.1 ≠ k) :
    rset d k v = d ++ [(k, v)] := by
  induction d with
  | nil => rfl
  | cons kv rest ih =>
    obtain ⟨k1, v1⟩ := kv
    have hk1 : k1 ≠ k := h (k1, v1) (List.mem_cons_self _ _)
    simp only [rset, if_neg hk1, List.cons_append, List.cons.injEq, true_and]
    exact ih (fun e he => h e (List.mem_cons_of_mem _ he))

/-- Building a dict from pairs with distinct keys, on top of a dict
with disjoint keys, appends them in order. -/
theorem foldl_rset_append :
    ∀ (kvs : List (Str × Str)) (acc : Record), ((kvs.map (·.1)).Nodup) →
      (∀ e ∈ acc, ∀ kv ∈ kvs, e.1 ≠ kv.1) →
      kvs.foldl (fun d kv => rset d kv.1 kv.2) acc = acc ++ kvs := by
  intro kvs
  induction kvs with
  | nil => intro acc _ _; simp
  | cons kv rest ih =>
    intro acc hnd hdisj
    obtain ⟨k1, v1⟩ := kv
    simp only [List.map_cons, List.nodup_cons] at hnd
    show rest.foldl (fun d kv => rset d kv.1 kv.2) (rset acc k1 v1) = _
    rw [rset_append v1 (fun e he => hdisj e he (k1, v1) (List.mem_cons_self _ _))]
    rw [ih (acc ++ [(k1, v1)]) hnd.2 ?_]
    · simp
    · intro e he kv2 hkv2
      rcases List.mem_append.mp he with he1 | he2
      · exact hdisj e he1 kv2 (List.mem_cons_of_mem _ hkv2)
      · have : e = (k1, v1) := List.mem_singleton.mp he2
        subst this
        intro hek
        exact hnd.1 (List.mem_map.mpr ⟨kv2, hkv2, hek.symm⟩)

/-- A dict built from pairs with distinct keys is those pairs in
order. -/
theorem buildDict_nodup_id {kvs : List (Str × Str)} (h : (kvs.map (·.1)).Nodup) :
    buildDict kvs = kvs := by
  show kvs.foldl (fun d kv => rset d kv.1 kv.2) [] = kvs
  rw [foldl_rset_append kvs [] h (by intro e he; cases he)]
  rfl

/-- A record of sanitizer fixed points sanitizes to itself. -/
theorem sanitize_fixed {cs : List Str} :
    ∀ {l : Record}, (∀ kv ∈ l, sanitize_item cs kv.1 kv.2 = some kv) →
      sanitize cs l = some l := by
  intro l
  induction l with
  | nil => intro _; rfl
  | cons kv rest ih =>
    intro h
    unfold sanitize
    rw [h kv (List.mem_cons_self _ _), ih (fun e he => h e (List.mem_cons_of_mem _ he))]
    rfl

/-- Lookup distributes over append. -/
theorem rget_append (l1 l2 : Record) (k : Str) :
    rget (l1 ++ l2) k = (match rget l1 k with
      | some v => some v
      | none => rget l2 k) := by
  induction l1 with
  | nil => rfl
  | cons kv rest ih =>
    obtain ⟨k1, v1⟩ := kv
    by_cases hk1 : k1 = k
    · simp [rget, hk1]
    · simp only [List.cons_append, rget, if_neg hk1]
      exact ih

/-- In a record with distinct keys, a member entry is what lookup
finds. -/
theorem rget_of_mem_nodup :
    ∀ {l : Record} {k v : Str}, ((l.map (·.1)).Nodup) → (k, v) ∈ l →
      rget l k = some v := by
  intro l
  induction l with
  | nil => intro k v _ h; cases h
  | cons kv rest ih =>
    intro k v hnd hm
    obtain ⟨k1, v1⟩ := kv
    simp only [List.map_cons, List.nodup_cons] at hnd
    rcases List.mem_cons.mp hm with heq | hmem
    · cases heq
      simp [rget]
    · have hk1 : k1 ≠ k := by
        intro he
        exact hnd.1 (List.mem_map.mpr ⟨(k, v), hmem, he.symm⟩)
      simp only [rget, if_neg hk1]
      exact ih hnd.2 hmem

/-- A key carried by no entry looks up to nothing. -/
theorem rget_none_of_keys {l : Record} {k : Str} (h : ∀ e ∈ l, e.1 ≠ k) :
    rget l k = none := by
  induction l with
  | nil => rfl
  | cons kv rest ih =>
    obtain ⟨k1, v1⟩ := kv
    simp only [rget, if_neg (h (k1, v1) (List.mem_cons_self _ _))]
    exact ih (fun e he => h e (List.mem_cons_of_mem _ he))

/-- The rendered tag template carries `field="value"` verbatim for
every template field present in the record. -/
theorem renderTag_contains_attr {d : Record} {k v : Str}
    (hf : k ∈ templateFields (tagOf d = "sleep".toList)) (hv : rget d k = some v) :
    containsSub (k ++ ['=', '"'] ++ v ++ ['"']) (renderTag d) = true := by
  have hpiece : (k ++ ['=', '"'] ++ ((rget d k).getD []) ++ ['"']) ∈
      (templateFields (tagOf d = "sleep".toList)).map
        (fun g => g ++ ['=', '"'] ++ ((rget d g).getD []) ++ ['"']) :=
    List.mem_map_of_mem _ hf
  rw [hv] at hpiece
  obtain ⟨a, b, hab⟩ := intercalate_split [' '] hpiece
  apply contains_of_eq (a := ['<'] ++ tagOf d ++ [' '] ++ a)
    (b := b ++ ['>'] ++ ((rget d ("description".toList)).getD []) ++
      (['<', '/'] ++ tagOf d ++ ['>']))
  unfold renderTag attrTextOf
  rw [hab]
  simp [List.append_assoc]

/-- Any field of the source tuple outside `checkin`/`checkout` is in
every template. -/
theorem mem_templateFields_any {k : Str} (hk : k ∈ tagFields)
    (hck2 : k ≠ "checkin".toList ∧ k ≠ "checkout".toList) :
    ∀ b : Bool, k ∈ templateFields b := by
  intro b
  cases b
  · simp only [templateFields, Bool.false_eq_true, if_false]
    refine List.mem_filter.mpr ⟨hk, ?_⟩
    simp only [Bool.and_eq_true, decide_eq_true_eq, ne_eq]
    exact ⟨hck2.1, hck2.2⟩
  · simp only [templateFields, if_true]
    exact hk

/-- Claim C5 (amended): for a description-less tag element with a
recognized category and distinct template-listed attributes whose
values are sanitizer fixed points (`checkin`/`checkout` only under
`sleep`), reading and re-serializing reproduces every attribute
verbatim: the record holds each original value and the rendered
string contains `field="value"` exactly.  The original claim fails
for values the sanitizer rewrites (beyond whitespace/quoting), such
as schemeless urls — see the counterexample. -/
theorem C5_tag_roundtrip (sv : Services) (t : Element) (k v : Str)
    (htag : t.tag ∈ tagTypes) (htext : t.text = [])
    (hnd : (t.attrs.map (·.1)).Nodup)
    (hfields : ∀ kv ∈ t.attrs, kv.1 ∈ tagFields)
    (hsan : ∀ kv ∈ t.attrs, sanitize_item tagCrashAttrs kv.1 kv.2 = some kv)
    (hkv : (k, v) ∈ t.attrs)
    (hck : (k ≠ "checkin".toList ∧ k ≠ "checkout".toList) ∨ t.tag = "sleep".toList) :
    ∃ r s, Tag_read sv t = some r ∧ rget r k = some v ∧ Tag_tostring sv r = some s ∧
      containsSub (k ++ ['=', '"'] ++ v ++ ['"']) s = true := by
  have hhtml : t.tag ≠ "html".toList := by
    have hall : ∀ x ∈ tagTypes, x ≠ "html".toList := by decide
    exact hall t.tag htag
  have htype_keys : ∀ e ∈ t.attrs, e.1 ≠ "type".toList := by
    intro e he
    have hall : ∀ f ∈ tagFields, f ≠ "type".toList := by decide
    exact hall e.1 (hfields e he)
  have h1 : Tag_read sv t = (match tagBuild sv t with
      | none => none
      | some d => sanitize tagCrashAttrs d) := by
    unfold Tag_read
    rw [if_neg hhtml]
  have hb : tagBuild sv t = some (t.attrs ++ [(("type".toList : Str), t.tag)]) := by
    unfold tagBuild
    rw [htext]
    rw [if_neg (by simp)]
    rw [buildDict_nodup_id hnd, rset_append t.tag htype_keys]
  have hsanr : sanitize tagCrashAttrs (t.attrs ++ [(("type".toList : Str), t.tag)]) =
      some (t.attrs ++ [(("type".toList : Str), t.tag)]) := by
    apply sanitize_fixed
    intro kv hm
    rcases List.mem_append.mp hm with hm1 | hm2
    · exact hsan kv hm1
    · have heq : kv = ("type".toList, t.tag) := List.mem_singleton.mp hm2
      subst heq
      have hall : ∀ x ∈ tagTypes, sanitize_item tagCrashAttrs ("type".toList) x =
          some ("type".toList, x) := by decide
      exact hall t.tag htag
  have hread : Tag_read sv t = some (t.attrs ++ [(("type".toList : Str), t.tag)]) := by
    rw [h1, hb]
    exact hsanr
  have hrk : rget (t.attrs ++ [(("type".toList : Str), t.tag)]) k = some v := by
    rw [rget_append, rget_of_mem_nodup hnd hkv]
  have hrt : rget (t.attrs ++ [(("type".toList : Str), t.tag)]) ("type".toList) =
      some t.tag := by
    rw [rget_append, rget_none_of_keys htype_keys]
    simp [rget]
  have htag_keys : ∀ e ∈ (t.attrs ++ [(("type".toList : Str), t.tag)]),
      e.1 ≠ "tag".toList := by
    intro e he
    rcases List.mem_append.mp he with he1 | he2
    · have hall : ∀ f ∈ tagFields, f ≠ "tag".toList := by decide
      exact hall e.1 (hfields e he1)
    · have heq : e = ("type".toList, t.tag) := List.mem_singleton.mp he2
      subst heq
      exact (by decide : ("type".toList : Str) ≠ "tag".toList)
  have hplow : pyLower t.tag = t.tag := by
    have hall : ∀ x ∈ tagTypes, pyLower x = x := by decide
    exact hall t.tag htag
  have hd2eq : rset (t.attrs ++ [(("type".toList : Str), t.tag)]) ("tag".toList) t.tag =
      t.attrs ++ [(("type".toList : Str), t.tag)] ++ [(("tag".toList : Str), t.tag)] :=
    rset_append t.tag htag_keys
  have hintl : rget (t.attrs ++ [(("type".toList : Str), t.tag)] ++
      [(("tag".toList : Str), t.tag)]) ("intl-area-code".toList) = none := by
    apply rget_none_of_keys
    intro e he
    rcases List.mem_append.mp he with he1 | he2
    · rcases List.mem_append.mp he1 with he3 | he4
      · have hall : ∀ f ∈ tagFields, f ≠ "intl-area-code".toList := by decide
        exact hall e.1 (hfields e he3)
      · have heq : e = ("type".toList, t.tag) := List.mem_singleton.mp he4
        subst heq
        exact (by decide : ("type".toList : Str) ≠ "intl-area-code".toList)
    · have heq : e = ("tag".toList, t.tag) := List.mem_singleton.mp he2
      subst heq
      exact (by decide : ("tag".toList : Str) ≠ "intl-area-code".toList)
  have hpre : prefixNumbers (t.attrs ++ [(("type".toList : Str), t.tag)] ++
      [(("tag".toList : Str), t.tag)]) =
      t.attrs ++ [(("type".toList : Str), t.tag)] ++ [(("tag".toList : Str), t.tag)] := by
    unfold prefixNumbers
    rw [hintl]
  have hts : Tag_tostring sv (t.attrs ++ [(("type".toList : Str), t.tag)]) =
      some (renderTag (t.attrs ++ [(("type".toList : Str), t.tag)] ++
        [(("tag".toList : Str), t.tag)])) := by
    simp only [Tag_tostring, hrt, Option.bind_some]
    show some (renderTag (prefixNumbers (rset (t.attrs ++ [(("type".toList : Str), t.tag)])
      ("tag".toList) (if pyLower t.tag ∈ tagTypes then pyLower t.tag
        else (sv.determine_tagtype (pyLower t.tag)).1)))) = _
    rw [hplow, if_pos htag, hd2eq, hpre]
  have htagof : tagOf (t.attrs ++ [(("type".toList : Str), t.tag)] ++
      [(("tag".toList : Str), t.tag)]) = t.tag := by
    unfold tagOf
    rw [rget_append, rget_none_of_keys htag_keys]
    simp [rget]
  have hktag : k ≠ "tag".toList := by
    have hall : ∀ f ∈ tagFields, f ≠ "tag".toList := by decide
    exact hall k (hfields (k, v) hkv)
  have hrk2 : rget (t.attrs ++ [(("type".toList : Str), t.tag)] ++
      [(("tag".toList : Str), t.tag)]) k = some v := by
    rw [rget_append, hrk]
  have hmemtf : k ∈ templateFields (tagOf (t.attrs ++ [(("type".toList : Str), t.tag)] ++
      [(("tag".toList : Str), t.tag)]) = "sleep".toList) := by
    rw [htagof]
    rcases hck with ⟨hc1, hc2⟩ | hsleep
    · exact mem_templateFields_any (hfields (k, v) hkv) ⟨hc1, hc2⟩ _
    · rw [hsleep]
      show k ∈ templateFields true
      simp only [templateFields, if_true]
      exact hfields (k, v) hkv
  refine ⟨t.attrs ++ [(("type".toList : Str), t.tag)],
    renderTag (t.attrs ++ [(("type".toList : Str), t.tag)] ++
      [(("tag".toList : Str), t.tag)]), hread, hrk, hts, ?_⟩
  exact renderTag_contains_attr hmemtf hrk2

/-- Claim C5 counterexample: a well-formed tag element with the
schemeless attribute `url="example.com"` round-trips to
`url="http://example.com"` — the sanitizer's rewrite goes beyond
whitespace and quoting, and the re-serialized string does not carry
the original attribute value. -/
theorem C5_cex :
    ((Tag_read svDummy (.mk ("eat".toList)
        [("name".toList, "A".toList), ("url".toList, "example.com".toList)] [] [])).map
      (fun r => rget r ("url".toList))) = some (some ("http://example.com".toList)) ∧
    eqModWsQuote ("http://example.com".toList) ("example.com".toList) = false ∧
    ((Tag_read svDummy (.mk ("eat".toList)
        [("name".toList, "A".toList), ("url".toList, "example.com".toList)] [] [])).bind
      (Tag_tostring svDummy)).map
        (containsSub ("url".toList ++ ['=', '"'] ++ "example.com".toList ++ ['"'])) =
      some false := by
  refine ⟨by decide, by decide, by decide⟩

/-- Claim C5 witness: the theorem applied to a concrete element whose
attribute values are already sanitized; the `url` attribute is
reproduced verbatim in the rendered string. -/
theorem C5_witness :
    ((Tag_read svDummy (.mk ("eat".toList)
        [("name".toList, "Rose".toList), ("url".toList, "http://r.fi".toList)] [] [])).map
      (fun r => rget r ("url".toList))) = some (some ("http://r.fi".toList)) ∧
    ((Tag_read svDummy (.mk ("eat".toList)
        [("name".toList, "Rose".toList), ("url".toList, "http://r.fi".toList)] [] [])).bind
      (Tag_tostring svDummy)).map
        (containsSub ("url".toList ++ ['=', '"'] ++ "http://r.fi".toList ++ ['"'])) =
      some true := by
  obtain ⟨r, s, h1, h2, h3, h4⟩ := C5_tag_roundtrip svDummy
    (.mk ("eat".toList) [("name".toList, "Rose".toList),
      ("url".toList, "http://r.fi".toList)] [] [])
    ("url".toList) ("http://r.fi".toList)
    (by decide) rfl (by decide) (by decide) (by decide) (by decide)
    (Or.inl (by decide))
  constructor
  · rw [h1]
    show some (rget r ("url".toList)) = some (some ("http://r.fi".toList))
    rw [h2]
  · rw [h1]
    show (Tag_tostring svDummy r).map
      (containsSub ("url".toList ++ ['=', '"'] ++ "http://r.fi".toList ++ ['"'])) = some true
    rw [h3]
    show some (containsSub ("url".toList ++ ['=', '"'] ++ "http://r.fi".toList ++ ['"']) s) =
      some true
    rw [h4]

/-- `takeWhile` keeps a list all of whose elements satisfy the
predicate. -/
theorem takeWhile_all (p : Char → Bool) :
    ∀ (w : Str), (∀ c ∈ w, p c = true) → w.takeWhile p = w := by
  intro w
  induction w with
  | nil => intro _; rfl
  | cons c cs ih =>
    intro h
    rw [List.takeWhile_cons, if_pos (h c (List.mem_cons_self _ _))]
    rw [ih (fun a ha => h a (List.mem_cons_of_mem _ ha))]

/-- `dropWhile` drops a list all of whose elements satisfy the
predicate. -/
theorem dropWhile_all (p : Char → Bool) :
    ∀ (w : Str), (∀ c ∈ w, p c = true) → w.dropWhile p = [] := by
  intro w
  induction w with
  | nil => intro _; rfl
  | cons c cs ih =>
    intro h
    rw [List.dropWhile_cons, if_pos (h c (List.mem_cons_self _ _))]
    exact ih (fun a ha => h a (List.mem_cons_of_mem _ ha))

/-- `takeWhile` passes over a satisfying block. -/
theorem takeWhile_all_append (p : Char → Bool) :
    ∀ (w y : Str), (∀ c ∈ w, p c = true) →
      (w ++ y).takeWhile p = w ++ y.takeWhile p := by
  intro w y
  induction w with
  | nil => intro _; rfl
  | cons c cs ih =>
    intro h
    rw [List.cons_append, List.takeWhile_cons, if_pos (h c (List.mem_cons_self _ _))]
    rw [ih (fun a ha => h a (List.mem_cons_of_mem _ ha))]
    rfl

/-- `dropWhile` skips a satisfying block. -/
theorem dropWhile_all_append (p : Char → Bool) :
    ∀ (w y : Str), (∀ c ∈ w, p c = true) →
      (w ++ y).dropWhile p = y.dropWhile p := by
  intro w y
  induction w with
  | nil => intro _; rfl
  | cons c cs ih =>
    intro h
    rw [List.cons_append, List.dropWhile_cons, if_pos (h c (List.mem_cons_self _ _))]
    exact ih (fun a ha => h a (List.mem_cons_of_mem _ ha))

/-- A nonempty whitespace-free string is its own single word. -/
theorem pyWords_noWs {s : Str} (hne : s ≠ []) (h : ∀ c ∈ s, c ∉ pyWs) :
    pyWords s = [s] := by
  cases s with
  | nil => exact absurd rfl hne
  | cons c cs =>
    rw [pyWords_cons, if_neg (h c (List.mem_cons_self _ _))]
    rw [takeWhile_all _ cs
      (fun a ha => decide_eq_true (h a (List.mem_cons_of_mem _ ha)))]
    rw [dropWhile_all _ cs
      (fun a ha => decide_eq_true (h a (List.mem_cons_of_mem _ ha)))]
    rfl

/-- Every word produced by `pyWordsAux` is nonempty and whitespace
free. -/
theorem pyWordsAux_wf :
    ∀ (fuel : Nat) (s w : Str), w ∈ pyWordsAux fuel s →
      w ≠ [] ∧ ∀ c ∈ w, c ∉ pyWs := by
  intro fuel
  induction fuel with
  | zero => intro s w h; cases h
  | succ f ih =>
    intro s w h
    cases s with
    | nil => cases h
    | cons c cs =>
      simp only [pyWordsAux] at h
      by_cases hc : c ∈ pyWs
      · rw [if_pos hc] at h
        exact ih cs w h
      · rw [if_neg hc] at h
        rcases List.mem_cons.mp h with heq | hmem
        · subst heq
          refine ⟨List.cons_ne_nil _ _, ?_⟩
          intro a ha
          rcases List.mem_cons.mp ha with haeq | hamem
          · subst haeq; exact hc
          · have := @List.mem_takeWhile_imp _ (fun x => decide (x ∉ pyWs)) cs a hamem
            exact of_decide_eq_true this
        · exact ih _ w hmem

/-- Every word of `pyWords` is nonempty and whitespace free. -/
theorem pyWords_wf (s : Str) : ∀ w ∈ pyWords s, w ≠ [] ∧ ∀ c ∈ w, c ∉ pyWs :=
  fun w hw => pyWordsAux_wf (s.length + 1) s w hw

/-- Intercalating a one-element list. -/
theorem intercalate_single (w : Str) : List.intercalate [' '] [w] = w := by
  simp [List.intercalate, List.intersperse]

/-- Intercalating a list of two or more elements. -/
theorem intercalate_cons2 (w z : Str) (ws : List Str) :
    List.intercalate [' '] (w :: z :: ws) =
      w ++ ' ' :: List.intercalate [' '] (z :: ws) := by
  simp [List.intercalate, List.intersperse]

/-- Splitting a word followed by a space-separated remainder. -/
theorem pyWords_word_sep {w : Str} (t : Str) (hw : w ≠ [])
    (hnw : ∀ c ∈ w, c ∉ pyWs) :
    pyWords (w ++ ' ' :: t) = w :: pyWords t := by
  cases w with
  | nil => exact absurd rfl hw
  | cons c cs =>
    rw [List.cons_append, pyWords_cons, if_neg (hnw c (List.mem_cons_self _ _))]
    rw [takeWhile_all_append _ cs (' ' :: t)
      (fun a ha => decide_eq_true (hnw a (List.mem_cons_of_mem _ ha)))]
    rw [dropWhile_all_append _ cs (' ' :: t)
      (fun a ha => decide_eq_true (hnw a (List.mem_cons_of_mem _ ha)))]
    have hsp : (' ' :: t).takeWhile (fun x => decide (x ∉ pyWs)) = [] := by
      rw [List.takeWhile_cons]
      simp [pyWs]
    have hsd : (' ' :: t).dropWhile (fun x => decide (x ∉ pyWs)) = ' ' :: t := by
      rw [List.dropWhile_cons]
      simp [pyWs]
    rw [hsp, hsd, List.append_nil, pyWords_cons, if_pos (by simp [pyWs])]

/-- `pyWords` inverts intercalation of nonempty whitespace-free
words. -/
theorem pyWords_intercalate :
    ∀ (ws : List Str), (∀ w ∈ ws, w ≠ [] ∧ ∀ c ∈ w, c ∉ pyWs) →
      pyWords (List.intercalate [' '] ws) = ws := by
  intro ws
  induction ws with
  | nil => intro _; rfl
  | cons w tail ih =>
    intro h
    cases tail with
    | nil =>
      rw [intercalate_single]
      exact pyWords_noWs (h w (List.mem_cons_self _ _)).1 (h w (List.mem_cons_self _ _)).2
    | cons z ws2 =>
      rw [intercalate_cons2]
      rw [pyWords_word_sep _ (h w (List.mem_cons_self _ _)).1
        (h w (List.mem_cons_self _ _)).2]
      rw [ih (fun a ha => h a (List.mem_cons_of_mem _ ha))]

/-- The whitespace squeezer is idempotent. -/
theorem squeeze_idem (s : Str) : squeeze (squeeze s) = squeeze s := by
  show List.intercalate [' '] (pyWords (List.intercalate [' '] (pyWords s))) = _
  rw [pyWords_intercalate (pyWords s) (pyWords_wf s)]
  rfl

/-- A whitespace-free string is a squeeze fixed point. -/
theorem squeeze_noWs {s : Str} (h : ∀ c ∈ s, c ∉ pyWs) : squeeze s = s := by
  cases hs : s with
  | nil => rfl
  | cons c cs =>
    show List.intercalate [' '] (pyWords (c :: cs)) = _
    rw [← hs, pyWords_noWs (by rw [hs]; exact List.cons_ne_nil _ _) h,
      intercalate_single]

/-- Membership in a space-intercalated list. -/
theorem mem_intercalate_space :
    ∀ (ws : List Str) (c : Char), c ∈ List.intercalate [' '] ws →
      c = ' ' ∨ ∃ w ∈ ws, c ∈ w := by
  intro ws
  induction ws with
  | nil => intro c h; cases h
  | cons w tail ih =>
    intro c h
    cases tail with
    | nil =>
      rw [intercalate_single] at h
      exact Or.inr ⟨w, List.mem_cons_self _ _, h⟩
    | cons z ws2 =>
      rw [intercalate_cons2] at h
      rcases List.mem_append.mp h with h1 | h1
      · exact Or.inr ⟨w, List.mem_cons_self _ _, h1⟩
      · rcases List.mem_cons.mp h1 with h2 | h2
        · exact Or.inl h2
        · rcases ih c h2 with h3 | ⟨w2, hw2, hc2⟩
          · exact Or.inl h3
          · exact Or.inr ⟨w2, List.mem_cons_of_mem _ hw2, hc2⟩

/-- In a squeeze fixed point the only whitespace character is the
plain space. -/
theorem mem_squeezed_ws {u : Str} (h : squeeze u = u) {c : Char}
    (hc : c ∈ u) (hw : c ∈ pyWs) : c = ' ' := by
  have h2 : List.intercalate [' '] (pyWords u) = u := h
  rw [← h2] at hc
  rcases mem_intercalate_space (pyWords u) c hc with h3 | ⟨w, hwm, hcm⟩
  · exact h3
  · exact absurd hw ((pyWords_wf u w hwm).2 c hcm)

/-- Prepending a whitespace-free nonempty block preserves squeeze
fixedness. -/
theorem squeezed_append_word {p u : Str} (hp : p ≠ [])
    (hpw : ∀ c ∈ p, c ∉ pyWs) (h : squeeze u = u) :
    squeeze (p ++ u) = p ++ u := by
  have h2 : List.intercalate [' '] (pyWords u) = u := h
  cases hw : pyWords u with
  | nil =>
    have hu : u = [] := by rw [← h2, hw]; rfl
    rw [hu, List.append_nil]
    exact squeeze_noWs hpw
  | cons w ws =>
    rw [hw] at h2
    have key : p ++ u = List.intercalate [' '] ((p ++ w) :: ws) := by
      rw [← h2]
      cases ws with
      | nil => rw [intercalate_single, intercalate_single]
      | cons z ws2 => rw [intercalate_cons2, intercalate_cons2, List.append_assoc]
    rw [key]
    show List.intercalate [' '] (pyWords (List.intercalate [' '] ((p ++ w) :: ws))) = _
    rw [pyWords_intercalate ((p ++ w) :: ws) ?_]
    intro w2 hw2
    rcases List.mem_cons.mp hw2 with heq | hmem
    · subst heq
      constructor
      · cases p with
        | nil => exact absurd rfl hp
        | cons a as => exact List.cons_ne_nil _ _
      · intro a ha
        rcases List.mem_append.mp ha with h4 | h4
        · exact hpw a h4
        · exact (pyWords_wf u w (by rw [hw]; exact List.mem_cons_self _ _)).2 a h4
    · exact pyWords_wf u w2 (by rw [hw]; exact List.mem_cons_of_mem _ hmem)

/-- `isPrefixB` of a single-character pattern on a cons. -/
theorem isPrefixB_single_cons (c x : Char) (r : Str) :
    isPrefixB [c] (x :: r) = decide (c = x) := by
  simp [isPrefixB]

/-- Left-stripping ends on a character outside the strip set (or
empties the string). -/
theorem pyLstrip_head (cs : List Char) :
    ∀ (s : Str), pyLstrip cs s = [] ∨
      ∃ c rest, pyLstrip cs s = c :: rest ∧ c ∉ cs := by
  intro s
  induction s with
  | nil => exact Or.inl rfl
  | cons x xs ih =>
    by_cases hx : x ∈ cs
    · have he : pyLstrip cs (x :: xs) = pyLstrip cs xs := by
        show (x :: xs).dropWhile (· ∈ cs) = _
        rw [List.dropWhile_cons, if_pos (decide_eq_true hx)]
        rfl
      rw [he]
      exact ih
    · have he : pyLstrip cs (x :: xs) = x :: xs := by
        show (x :: xs).dropWhile (· ∈ cs) = _
        rw [List.dropWhile_cons, if_neg (by simpa using hx)]
      exact Or.inr ⟨x, xs, he, hx⟩

/-- Right-stripping yields a prefix of the string. -/
theorem pyRstrip_append (cs : List Char) (s : Str) :
    ∃ suf, s = pyRstrip cs s ++ suf := by
  refine ⟨(s.reverse.takeWhile (· ∈ cs)).reverse, ?_⟩
  show s = (s.reverse.dropWhile (· ∈ cs)).reverse ++ (s.reverse.takeWhile (· ∈ cs)).reverse
  rw [← List.reverse_append, List.takeWhile_append_dropWhile, List.reverse_reverse]

/-- Stripping both ends lands on a head outside the strip set. -/
theorem pyStrip_head (cs : List Char) (s : Str) :
    pyStrip cs s = [] ∨ ∃ c rest, pyStrip cs s = c :: rest ∧ c ∉ cs := by
  show pyRstrip cs (pyLstrip cs s) = [] ∨ _
  cases hr : pyRstrip cs (pyLstrip cs s) with
  | nil => exact Or.inl rfl
  | cons c rest =>
    refine Or.inr ⟨c, rest, hr, ?_⟩
    obtain ⟨suf, hsuf⟩ := pyRstrip_append cs (pyLstrip cs s)
    rw [hr] at hsuf
    rcases pyLstrip_head cs s with h1 | ⟨c2, r2, h2, hc2⟩
    · rw [h1] at hsuf; cases hsuf
    · rw [h2] at hsuf
      have : c2 = c := (List.cons.injEq _ _ _ _ ▸ hsuf).1
      rw [← this]
      exact hc2

/-- Members of the stripped string come from the original. -/
theorem mem_pyStrip {cs : List Char} {a : Char} {s : Str}
    (h : a ∈ pyStrip cs s) : a ∈ s := by
  have h1 : a ∈ pyLstrip cs s := by
    obtain ⟨suf, hsuf⟩ := pyRstrip_append cs (pyLstrip cs s)
    rw [hsuf]
    exact List.mem_append_left _ h
  show a ∈ s
  have h2 : a ∈ s.dropWhile (· ∈ cs) := h1
  exact (List.dropWhile_sublist _).subset h2

/-- The first component of a character split contains no separator. -/
theorem splitFC_fst_ne (c : Char) :
    ∀ (t : Str), ∀ a ∈ (splitFirstChar c t).1, a ≠ c := by
  intro t
  induction t with
  | nil => intro a ha; cases ha
  | cons x xs ih =>
    intro a ha
    by_cases hx : x = c
    · rw [show splitFirstChar c (x :: xs) = ([], xs) by
        simp [splitFirstChar, hx]] at ha
      cases ha
    · rw [show splitFirstChar c (x :: xs) =
        (x :: (splitFirstChar c xs).1, (splitFirstChar c xs).2) by
        simp [splitFirstChar, hx]] at ha
      rcases List.mem_cons.mp ha with heq | hmem
      · subst heq; exact hx
      · exact ih a hmem

/-- The first component of a character split sits inside the
string. -/
theorem splitFC_fst_mem (c : Char) :
    ∀ (t : Str), ∀ a ∈ (splitFirstChar c t).1, a ∈ t := by
  intro t
  induction t with
  | nil => intro a ha; cases ha
  | cons x xs ih =>
    intro a ha
    by_cases hx : x = c
    · rw [show splitFirstChar c (x :: xs) = ([], xs) by
        simp [splitFirstChar, hx]] at ha
      cases ha
    · rw [show splitFirstChar c (x :: xs) =
        (x :: (splitFirstChar c xs).1, (splitFirstChar c xs).2) by
        simp [splitFirstChar, hx]] at ha
      rcases List.mem_cons.mp ha with heq | hmem
      · subst heq; exact List.mem_cons_self _ _
      · exact List.mem_cons_of_mem _ (ih a hmem)

/-- A member makes a single-character pattern occur. -/
theorem containsSub_single_of_mem {c : Char} :
    ∀ {s : Str}, c ∈ s → containsSub [c] s = true := by
  intro s
  induction s with
  | nil => intro h; cases h
  | cons x xs ih =>
    intro h
    show (isPrefixB [c] (x :: xs) || containsSub [c] xs) = true
    rcases List.mem_cons.mp h with heq | hmem
    · rw [isPrefixB_single_cons, decide_eq_true heq]
      rfl
    · rw [ih hmem, Bool.or_true]

/-- Splitting at a separator cannot create a new head. -/
theorem splitFC_fst_head (a c : Char) :
    ∀ (t : Str), isPrefixB [a] t = false →
      isPrefixB [a] ((splitFirstChar c t).1) = false := by
  intro t
  cases t with
  | nil => intro _; rfl
  | cons x xs =>
    intro h
    by_cases hx : x = c
    · rw [show splitFirstChar c (x :: xs) = ([], xs) by simp [splitFirstChar, hx]]
      rfl
    · rw [show splitFirstChar c (x :: xs) =
        (x :: (splitFirstChar c xs).1, (splitFirstChar c xs).2) by
        simp [splitFirstChar, hx]]
      rw [isPrefixB_single_cons]
      rw [isPrefixB_single_cons] at h
      exact h

/-- The bracket-stripping step never yields a value starting with an
opening bracket. -/
theorem urlStrip_no_lbrack (v : Str) : isPrefixB ['['] (urlStrip v) = false := by
  unfold urlStrip
  by_cases hb : isPrefixB ['['] v = true
  · rw [if_pos hb]
    show isPrefixB ['['] (if containsSub [' '] (pyStrip ['[', ']', ' '] v) = true then
      (splitFirstChar ' ' (pyStrip ['[', ']', ' '] v)).1
      else pyStrip ['[', ']', ' '] v) = false
    have ht : isPrefixB ['['] (pyStrip ['[', ']', ' '] v) = false := by
      rcases pyStrip_head ['[', ']', ' '] v with h1 | ⟨c, rest, h2, hc⟩
      · rw [h1]; rfl
      · rw [h2, isPrefixB_single_cons]
        have : '[' ≠ c := fun he => hc (he ▸ List.mem_cons_self _ _)
        simp [this]
    by_cases hsp : containsSub [' '] (pyStrip ['[', ']', ' '] v) = true
    · rw [if_pos hsp]
      exact splitFC_fst_head '[' ' ' _ ht
    · rw [if_neg hsp]
      exact ht
  · rw [if_neg hb]
    revert hb
    cases isPrefixB ['['] v <;> simp

/-- The bracket step is the identity on values not starting with an
opening bracket. -/
theorem urlStrip_id {w : Str} (h : isPrefixB ['['] w = false) : urlStrip w = w := by
  unfold urlStrip
  rw [h]
  simp

/-- `url` written through its two named stages. -/
theorem url_expand (v : Str) :
    url v = if ¬ isPrefixB ("http://".toList) (urlStrip v) = true ∧
        ¬ containsSub ("//".toList) (urlStrip v) = true then
      ("http://".toList) ++ urlStrip v
    else urlStrip v := rfl

/-- The url sanitizer never returns the empty string. -/
theorem url_ne_nil (v : Str) : url v ≠ [] := by
  rw [url_expand]
  by_cases hg : ¬ isPrefixB ("http://".toList) (urlStrip v) = true ∧
      ¬ containsSub ("//".toList) (urlStrip v) = true
  · rw [if_pos hg]
    simp
  · rw [if_neg hg]
    intro h0
    apply hg
    rw [h0]
    exact ⟨by decide, by decide⟩

/-- The url sanitizer is idempotent. -/
theorem url_idem (v : Str) : url (url v) = url v := by
  rw [url_expand v]
  by_cases hg : ¬ isPrefixB ("http://".toList) (urlStrip v) = true ∧
      ¬ containsSub ("//".toList) (urlStrip v) = true
  · rw [if_pos hg, url_expand]
    have h1 : urlStrip ("http://".toList ++ urlStrip v) =
        "http://".toList ++ urlStrip v := by
      apply urlStrip_id
      show isPrefixB ['['] ('h' :: ("ttp://".toList ++ urlStrip v)) = false
      rw [isPrefixB_single_cons]
      decide
    rw [h1]
    rw [if_neg (fun hc => hc.1 (isPrefixB_append_self _ _))]
  · rw [if_neg hg, url_expand, urlStrip_id (urlStrip_no_lbrack v), if_neg hg]

/-- The url sanitizer preserves squeeze fixedness. -/
theorem url_squeezed {v : Str} (h : squeeze v = v) : squeeze (url v) = url v := by
  have hu : squeeze (urlStrip v) = urlStrip v := by
    unfold urlStrip
    by_cases hb : isPrefixB ['['] v = true
    · rw [if_pos hb]
      show squeeze (if containsSub [' '] (pyStrip ['[', ']', ' '] v) = true then
          (splitFirstChar ' ' (pyStrip ['[', ']', ' '] v)).1
          else pyStrip ['[', ']', ' '] v) = _
      by_cases hsp : containsSub [' '] (pyStrip ['[', ']', ' '] v) = true
      · rw [if_pos hsp]
        apply squeeze_noWs
        intro c hc hcw
        have hcv : c ∈ v := mem_pyStrip (splitFC_fst_mem ' ' _ c hc)
        exact splitFC_fst_ne ' ' _ c hc (mem_squeezed_ws h hcv hcw)
      · rw [if_neg hsp]
        apply squeeze_noWs
        intro c hc hcw
        have hce : c = ' ' := mem_squeezed_ws h (mem_pyStrip hc) hcw
        subst hce
        exact hsp (containsSub_single_of_mem hc)
    · rw [if_neg hb]
      exact h
  rw [url_expand]
  by_cases hg : ¬ isPrefixB ("http://".toList) (urlStrip v) = true ∧
      ¬ containsSub ("//".toList) (urlStrip v) = true
  · rw [if_pos hg]
    exact squeezed_append_word (by decide) (by decide) hu
  · rw [if_neg hg]
    exact hu

/-- Dispatch to a non-callable class attribute crashes. -/
theorem applySan_mem_none {cs : List Str} {fn : Str} (v : Str) (h : fn ∈ cs) :
    applySan cs fn v = none := by
  unfold applySan
  rw [if_pos h]

/-- A sanitized item is itself a sanitizer fixed point whenever its
(squeezed) value is empty, its name routes to the url sanitizer, or
its name routes to the identity default. -/
theorem sanitize_item_idem {cs : List Str} {k v : Str} {p : Str × Str}
    (h : sanitize_item cs k v = some p)
    (hr : squeeze v = [] ∨ routeName (squeeze k) = "url".toList ∨
      routeName (squeeze k) ∉ sanNames) :
    sanitize_item cs p.1 p.2 = some p := by
  have h0 : (if squeeze v = [] then some (squeeze k, squeeze v)
      else (applySan cs (routeName (squeeze k)) (squeeze v)).map
        (fun w => (squeeze k, w))) = some p := h
  by_cases hv : squeeze v = []
  · rw [if_pos hv, hv] at h0
    have hp : p = (squeeze k, []) := (Option.some.inj h0).symm
    subst hp
    show (if squeeze ([] : Str) = [] then some (squeeze (squeeze k), squeeze ([] : Str))
      else (applySan cs (routeName (squeeze (squeeze k))) (squeeze ([] : Str))).map
        (fun w => (squeeze (squeeze k), w))) = some (squeeze k, [])
    rw [if_pos (show squeeze ([] : Str) = [] from rfl)]
    rw [squeeze_idem]
    rfl
  · rw [if_neg hv] at h0
    cases ha : applySan cs (routeName (squeeze k)) (squeeze v) with
    | none => rw [ha] at h0; cases h0
    | some w =>
      rw [ha] at h0
      have hp : p = (squeeze k, w) := (Option.some.inj h0).symm
      subst hp
      have hcs : routeName (squeeze k) ∉ cs := by
        intro hmem
        rw [applySan_mem_none (squeeze v) hmem] at ha
        cases ha
      have hcase : routeName (squeeze k) = "url".toList ∨
          (routeName (squeeze k) ≠ "url".toList ∧
            routeName (squeeze k) ∉ sanNames) := by
        rcases hr with hr1 | hr2 | hr3
        · exact absurd hr1 hv
        · exact Or.inl hr2
        · by_cases hurl : routeName (squeeze k) = "url".toList
          · exact Or.inl hurl
          · exact Or.inr ⟨hurl, hr3⟩
      rcases hcase with hurl | ⟨hne, hnotin⟩
      · rw [hurl] at ha
        have ha2 : applySan cs ("url".toList) (squeeze v) =
            some (url (squeeze v)) := by
          unfold applySan
          rw [if_neg (hurl ▸ hcs), if_neg (by decide), if_neg (by decide),
            if_neg (by decide), if_pos rfl]
        rw [ha2] at ha
        have hw : w = url (squeeze v) := (Option.some.inj ha).symm
        subst hw
        show (if squeeze (url (squeeze v)) = []
          then some (squeeze (squeeze k), squeeze (url (squeeze v)))
          else (applySan cs (routeName (squeeze (squeeze k)))
            (squeeze (url (squeeze v)))).map
              (fun w2 => (squeeze (squeeze k), w2))) = some (squeeze k, url (squeeze v))
        rw [squeeze_idem k, url_squeezed (squeeze_idem v)]
        rw [if_neg (url_ne_nil (squeeze v))]
        rw [hurl]
        rw [show applySan cs ("url".toList) (url (squeeze v)) =
            some (url (url (squeeze v))) from by
          unfold applySan
          rw [if_neg (hurl ▸ hcs), if_neg (by decide), if_neg (by decide),
            if_neg (by decide), if_pos rfl]]
        rw [url_idem]
        rfl
      · have hd1 : routeName (squeeze k) ≠ "description".toList :=
          fun he => hnotin (by rw [he]; decide)
        have hd2 : routeName (squeeze k) ≠ "directions".toList :=
          fun he => hnotin (by rw [he]; decide)
        have hd3 : routeName (squeeze k) ≠ "numbers".toList :=
          fun he => hnotin (by rw [he]; decide)
        have hd4 : routeName (squeeze k) ≠ "email".toList :=
          fun he => hnotin (by rw [he]; decide)
        have hd5 : routeName (squeeze k) ≠ "price".toList :=
          fun he => hnotin (by rw [he]; decide)
        have ha2 : applySan cs (routeName (squeeze k)) (squeeze v) =
            some (squeeze v) := by
          unfold applySan
          rw [if_neg hcs, if_neg hd1, if_neg hd2, if_neg hd3, if_neg hne,
            if_neg hd4, if_neg hd5]
        rw [ha2] at ha
        have hw : w = squeeze v := (Option.some.inj ha).symm
        subst hw
        show (if squeeze (squeeze v) = []
          then some (squeeze (squeeze k), squeeze (squeeze v))
          else (applySan cs (routeName (squeeze (squeeze k)))
            (squeeze (squeeze v))).map
              (fun w2 => (squeeze (squeeze k), w2))) = some (squeeze k, squeeze v)
        rw [squeeze_idem k, squeeze_idem v]
        rw [if_neg hv, ha2]
        rfl

/-- Every sanitized entry arises from an input entry. -/
theorem sanitize_preimage {cs : List Str} :
    ∀ {d r : Record}, sanitize cs d = some r →
      ∀ kv1 ∈ r, ∃ kv ∈ d, sanitize_item cs kv.1 kv.2 = some kv1 := by
  intro d
  induction d with
  | nil =>
    intro r hs kv1 h1
    have hr : ([] : Record) = r := Option.some.inj hs
    rw [← hr] at h1
    cases h1
  | cons kv rest ih =>
    intro r hs kv1 h1
    unfold sanitize at hs
    cases h2 : sanitize_item cs kv.1 kv.2 with
    | none => rw [h2] at hs; cases hs
    | some kvA =>
      rw [h2] at hs
      cases h3 : sanitize cs rest with
      | none => rw [h3] at hs; cases hs
      | some restA =>
        rw [h3] at hs
        have hr : kvA :: restA = r := Option.some.inj hs
        rw [← hr] at h1
        rcases List.mem_cons.mp h1 with heq | hmem
        · subst heq
          exact ⟨kv, List.mem_cons_self _ _, h2⟩
        · obtain ⟨kv0, hkv0, hkv0s⟩ := ih h3 kv1 hmem
          exact ⟨kv0, List.mem_cons_of_mem _ hkv0, hkv0s⟩

/-- Claim C3 (amended): sanitization is idempotent on every record
whose fields each have an empty squeezed value, route to the url
sanitizer, or route to the identity default — if such a record
sanitizes to `r`, then `r` sanitizes to itself.  (The counterexample
theorem shows idempotence fails in general: the description route
moves an already-sanitized value again.) -/
theorem C3_sanitize_partial_idem (cs : List Str) (d r : Record)
    (hs : sanitize cs d = some r)
    (hcond : ∀ kv ∈ d, squeeze kv.2 = [] ∨
      routeName (squeeze kv.1) = "url".toList ∨
      routeName (squeeze kv.1) ∉ sanNames) :
    sanitize cs r = some r := by
  apply sanitize_fixed
  intro kv1 h1
  obtain ⟨kv, hkv, hkvs⟩ := sanitize_preimage hs kv1 h1
  exact sanitize_item_idem hkvs (hcond kv hkv)

/-- Claim C3 counterexample: a description value carrying a stray
emphasis marker sanitizes to a lowercase sentence; sanitizing the
result again capitalizes it, so the second pass changes an
already-sanitized record. -/
theorem C3_cex :
    sanitize baseCrashAttrs
        [(("description".toList), doubleQuote ++ ("hello there".toList))] =
      some [(("description".toList), ("hello there.".toList))] ∧
    sanitize baseCrashAttrs
        [(("description".toList), ("hello there.".toList))] =
      some [(("description".toList), ("Hello there.".toList))] ∧
    ("hello there.".toList) ≠ ("Hello there.".toList) := by
  refine ⟨by decide, by decide, by decide⟩

/-- Claim C3 witness: the amended theorem applied to a record with a
url field and a default-routed name field; its sanitization is a
fixed point. -/
theorem C3_witness :
    sanitize baseCrashAttrs
        [(("url".toList), ("example.com".toList)),
          (("name".toList), ("Rose Villa".toList))] =
      some [(("url".toList), ("http://example.com".toList)),
        (("name".toList), ("Rose Villa".toList))] ∧
    sanitize baseCrashAttrs
        [(("url".toList), ("http://example.com".toList)),
          (("name".toList), ("Rose Villa".toList))] =
      some [(("url".toList), ("http://example.com".toList)),
        (("name".toList), ("Rose Villa".toList))] :=
  ⟨by decide,
   C3_sanitize_partial_idem baseCrashAttrs
     [(("url".toList), ("example.com".toList)),
       (("name".toList), ("Rose Villa".toList))]
     [(("url".toList), ("http://example.com".toList)),
       (("name".toList), ("Rose Villa".toList))]
     (by decide) (by decide)⟩
